import Mathlib

/-!
Verification of the "Discussion" widget (src/js/widgets/discussion.js) of the
bightwatch marine-weather dashboard.

The widget's logic is a pipeline of pure string transformations driven by
JavaScript regular-expression replaces and splits.  We embed it shallowly:
each `String.prototype.replace`/`split` call of the source becomes an
executable Lean function over `List Char` that implements that concrete
regex's semantics (leftmost match, greedy quantifiers, ordered alternation,
`g`/`i`/`m`/`s` flags as used at each site).  Machine scanners are written
structurally (with an explicit state or a fuel argument bounded by the input
length) so that every definition evaluates inside the kernel.

String-level wrappers keep the source's names (`formatText`,
`shouldStartNewParagraph`, `forceParagraphBreaks`, `breakLongParagraph`,
`formatDate`, `render`).
-/

namespace Bightwatch

/-! ## Character classes (JavaScript semantics) -/

/-- Horizontal whitespace as matched by the source's `[ \t]` character class. -/
def hsChar (c : Char) : Bool :=
  c = ' ' || c = '\t'

/-- JavaScript `\s` / `String.prototype.trim` whitespace: tab, LF, VT, FF, CR,
space, NBSP, BOM and the Unicode space separators. -/
def jsWs (c : Char) : Bool :=
  c = ' ' || c = '\t' || c = '\n' || c.toNat = 0xb || c.toNat = 0xc || c = '\r' ||
  c.toNat = 0xa0 || c.toNat = 0x1680 ||
  (0x2000 ≤ c.toNat && c.toNat ≤ 0x200a) ||
  c.toNat = 0x2028 || c.toNat = 0x2029 || c.toNat = 0x202f || c.toNat = 0x205f ||
  c.toNat = 0x3000 || c.toNat = 0xfeff

/-- JavaScript `\w` (word character), used by the `\b` boundary assertion. -/
def wordChar (c : Char) : Bool :=
  ('a' ≤ c && c ≤ 'z') || ('A' ≤ c && c ≤ 'Z') || ('0' ≤ c && c ≤ '9') || c = '_'

/-- ASCII lower-casing, enough for the `i` flag on the source's patterns
(they only contain ASCII letters). -/
def lowerC (c : Char) : Char :=
  if 'A' ≤ c && c ≤ 'Z' then Char.ofNat (c.toNat + 32) else c

/-- ASCII upper-casing, for the source's `sentence.toUpperCase()`. -/
def upperC (c : Char) : Char :=
  if 'a' ≤ c && c ≤ 'z' then Char.ofNat (c.toNat - 32) else c

/-- Case-insensitive character comparison (ASCII folding). -/
def ciEq (a b : Char) : Bool := lowerC a = lowerC b

/-! ## Trimming (`String.prototype.trim`) -/

/-- Left trim: drop leading JavaScript whitespace. -/
def trimL (l : List Char) : List Char := l.dropWhile jsWs

/-- Right trim: drop trailing JavaScript whitespace. -/
def trimR (l : List Char) : List Char := (trimL l.reverse).reverse

/-- JavaScript `String.prototype.trim` over a character list. -/
def jsTrim (l : List Char) : List Char := trimR (trimL l)


/-! ## Cleaning (formatText lines 121-132)

Six regex replaces applied in order, then `trim`:
1. `/usa\.gov.*?(?=\n\n|\n\s*\n|$)/gis` → `''`
2. `/^\s*[•·\-\*]\s*[^\n]*$/gm` → `''`
3. `/\s*[•·▪▫]\s*/g` → `' '`
4. `/[ \t]+/g` → `' '`
5. `/\n[ \t]+/g` → `'\n'`
6. `/\n{3,}/g` → `'\n\n'`
-/

/-- Case-insensitive literal match of a pattern at the head of the input. -/
def matchCI : List Char → List Char → Bool
  | [], _ => true
  | _ :: _, [] => false
  | p :: ps, c :: cs => ciEq p c && matchCI ps cs

/-- The lookahead `(?=\n\n|\n\s*\n|$)` of the usa.gov rule (no `m` flag, so `$`
is end of input; `\n\s*\n` subsumes `\n\n`): holds at end of input, or at a
newline from which a run of whitespace reaches another newline. -/
def usaStop : List Char → Bool
  | [] => true
  | '\n' :: rest => (rest.takeWhile jsWs).contains '\n'
  | _ => false

/-- Scanner for replace 1.  `deleting = true` while inside the lazy `.*?` of a
match; the lazy quantifier stops at the first position satisfying `usaStop`
(the lookahead is not consumed, so scanning resumes there).  Fuel is spent on
every step; `2 * length + 2` suffices since only the delete→scan transition
re-examines a position. -/
def ugGo : Nat → Bool → List Char → List Char
  | 0, _, l => l
  | _ + 1, _, [] => []
  | f + 1, true, l@(_ :: rest) =>
      if usaStop l then ugGo f false l else ugGo f true rest
  | f + 1, false, l@(c :: rest) =>
      if matchCI ['u', 's', 'a', '.', 'g', 'o', 'v'] l then ugGo f true (l.drop 7)
      else c :: ugGo f false rest

/-- Replace 1: remove `usa.gov` references through the end of their section. -/
def usaGov (l : List Char) : List Char := ugGo (2 * l.length + 2) false l

/-- The `[•·\-\*]` class of replace 2. -/
def bullet2 (c : Char) : Bool :=
  c.toNat = 0x2022 || c.toNat = 0xb7 || c = '-' || c = '*'

/-- The `[•·▪▫]` class of replace 3. -/
def bullet4 (c : Char) : Bool :=
  c.toNat = 0x2022 || c.toNat = 0xb7 || c.toNat = 0x25aa || c.toNat = 0x25ab

/-- Scanner states for replace 2.  At a line start, `^\s*` buffers whitespace
(greedily, possibly across further line starts) looking for a bullet; on a
bullet the match continues with greedy `\s*` (`delWs`) and then `[^\n]*`
(`delTxt`), ending before the next newline (`$` with the `m` flag). -/
inductive BLState | lineStart | mid | delWs | delTxt

/-- Scanner for replace 2.  `pend` holds (reversed) the whitespace buffered
since the current line start. -/
def blGo : BLState → List Char → List Char → List Char
  | .lineStart, pend, [] => pend.reverse
  | _, _, [] => []
  | .lineStart, pend, c :: rest =>
      if bullet2 c then blGo .delWs [] rest
      else if jsWs c then blGo .lineStart (c :: pend) rest
      else pend.reverse ++ c :: blGo .mid [] rest
  | .mid, _, c :: rest =>
      if c = '\n' then '\n' :: blGo .lineStart [] rest else c :: blGo .mid [] rest
  | .delWs, _, c :: rest =>
      if jsWs c then blGo .delWs [] rest else blGo .delTxt [] rest
  | .delTxt, _, c :: rest =>
      if c = '\n' then '\n' :: blGo .lineStart [] rest else blGo .delTxt [] rest

/-- Replace 2: delete bullet-led lines. -/
def bulletLines (l : List Char) : List Char := blGo .lineStart [] l

/-- Scanner for replace 3.  `afterB = false`: buffering a whitespace run in
`pend` that a bullet would absorb (`\s*` before `[•·▪▫]`); `afterB = true`:
consuming the greedy `\s*` after a replaced bullet. -/
def bcGo : Bool → List Char → List Char → List Char
  | false, pend, [] => pend.reverse
  | true, _, [] => []
  | false, pend, c :: rest =>
      if bullet4 c then ' ' :: bcGo true [] rest
      else if jsWs c then bcGo false (c :: pend) rest
      else pend.reverse ++ c :: bcGo false [] rest
  | true, _, c :: rest =>
      if jsWs c then bcGo true [] rest
      else if bullet4 c then ' ' :: bcGo true [] rest
      else c :: bcGo false [] rest

/-- Replace 3: each whitespace-wrapped `[•·▪▫]` becomes one space. -/
def bulletChars (l : List Char) : List Char := bcGo false [] l

/-- Replace 4: collapse `[ \t]+` runs to a single space.  `inRun` is true
while inside a run already replaced. -/
def hsRun : Bool → List Char → List Char
  | _, [] => []
  | inRun, c :: rest =>
      if hsChar c then
        if inRun then hsRun true rest else ' ' :: hsRun true rest
      else c :: hsRun false rest

/-- Replace 5: drop `[ \t]+` immediately after a newline. -/
def nlHs : Bool → List Char → List Char
  | _, [] => []
  | afterNl, c :: rest =>
      if afterNl && hsChar c then nlHs true rest
      else c :: nlHs (c = '\n') rest

/-- Replace 6: collapse `\n{3,}` runs to exactly two newlines.  `k` counts
the newlines already kept from the current run (capped at 2). -/
def nl3 : Nat → List Char → List Char
  | _, [] => []
  | k, c :: rest =>
      if c = '\n' then
        if 2 ≤ k then nl3 k rest else '\n' :: nl3 (k + 1) rest
      else c :: nl3 0 rest

/-- The whole cleaning chain of formatText (lines 121-132). -/
def cleanTextL (l : List Char) : List Char :=
  jsTrim (nl3 0 (nlHs false (hsRun false (bulletChars (bulletLines (usaGov l))))))

/-- String-level cleaning. -/
def cleanText (s : String) : String := String.mk (cleanTextL s.data)

/-! ## Tier-a segmentation: `cleanedText.split(/\n\n+|\.{3,}/)` (line 138) -/

/-- Scanner states for the tier-a split.  `nl1`, `dot1`, `dot2` hold one
pending newline resp. one or two pending dots that are content unless the
run completes a separator; `nlSep`/`dotSep` consume the greedy remainder of
a `\n\n+` resp. `\.{3,}` separator. -/
inductive ISState | norm | nl1 | nlSep | dot1 | dot2 | dotSep

/-- Tier-a split scanner; `acc` is the current piece, reversed. -/
def isGo : ISState → List Char → List Char → List (List Char)
  | .norm, acc, [] => [acc.reverse]
  | .nl1, acc, [] => [('\n' :: acc).reverse]
  | .dot1, acc, [] => [('.' :: acc).reverse]
  | .dot2, acc, [] => [('.' :: '.' :: acc).reverse]
  | .nlSep, _, [] => [[]]
  | .dotSep, _, [] => [[]]
  | .norm, acc, c :: rest =>
      if c = '\n' then isGo .nl1 acc rest
      else if c = '.' then isGo .dot1 acc rest
      else isGo .norm (c :: acc) rest
  | .nl1, acc, c :: rest =>
      if c = '\n' then acc.reverse :: isGo .nlSep [] rest
      else if c = '.' then isGo .dot1 ('\n' :: acc) rest
      else isGo .norm (c :: '\n' :: acc) rest
  | .nlSep, _, c :: rest =>
      if c = '\n' then isGo .nlSep [] rest
      else if c = '.' then isGo .dot1 [] rest
      else isGo .norm [c] rest
  | .dot1, acc, c :: rest =>
      if c = '.' then isGo .dot2 acc rest
      else if c = '\n' then isGo .nl1 ('.' :: acc) rest
      else isGo .norm (c :: '.' :: acc) rest
  | .dot2, acc, c :: rest =>
      if c = '.' then acc.reverse :: isGo .dotSep [] rest
      else if c = '\n' then isGo .nl1 ('.' :: '.' :: acc) rest
      else isGo .norm (c :: '.' :: '.' :: acc) rest
  | .dotSep, _, c :: rest =>
      if c = '.' then isGo .dotSep [] rest
      else if c = '\n' then isGo .nl1 [] rest
      else isGo .norm [c] rest

/-- The source's `initialSplit` (line 138). -/
def initialSplit (l : List Char) : List (List Char) := isGo .norm [] l

/-- Twin scanner emitting the separator texts of the tier-a split, for the
reconstruction theorem; `sacc` is the current separator, reversed. -/
def isGoS : ISState → List Char → List Char → List (List Char)
  | .nlSep, sacc, [] => [sacc.reverse]
  | .dotSep, sacc, [] => [sacc.reverse]
  | _, _, [] => []
  | .norm, _, c :: rest =>
      if c = '\n' then isGoS .nl1 [] rest
      else if c = '.' then isGoS .dot1 [] rest
      else isGoS .norm [] rest
  | .nl1, _, c :: rest =>
      if c = '\n' then isGoS .nlSep ['\n', '\n'] rest
      else if c = '.' then isGoS .dot1 [] rest
      else isGoS .norm [] rest
  | .nlSep, sacc, c :: rest =>
      if c = '\n' then isGoS .nlSep ('\n' :: sacc) rest
      else if c = '.' then sacc.reverse :: isGoS .dot1 [] rest
      else sacc.reverse :: isGoS .norm [] rest
  | .dot1, _, c :: rest =>
      if c = '.' then isGoS .dot2 [] rest
      else if c = '\n' then isGoS .nl1 [] rest
      else isGoS .norm [] rest
  | .dot2, _, c :: rest =>
      if c = '.' then isGoS .dotSep ['.', '.', '.'] rest
      else if c = '\n' then isGoS .nl1 [] rest
      else isGoS .norm [] rest
  | .dotSep, sacc, c :: rest =>
      if c = '.' then isGoS .dotSep ('.' :: sacc) rest
      else if c = '\n' then sacc.reverse :: isGoS .nl1 [] rest
      else sacc.reverse :: isGoS .norm [] rest

/-- Separator texts of the tier-a split. -/
def initialSplitSeps (l : List Char) : List (List Char) := isGoS .norm [] l

/-! ## Sentence split: `split(/\.\s+/)` (lines 142, 165, 253, 267, 289, 304) -/

/-- Sentence split scanner.  `skip = true` while consuming the greedy `\s+`
of a delimiter; `acc` is the current piece, reversed.  The delimiter
`\.\s+` is removed, so pieces do not keep their terminating period. -/
def sdGo : Bool → List Char → List Char → List (List Char)
  | _, acc, [] => [acc.reverse]
  | skip, acc, c :: rest =>
      if c = '.' then
        match rest with
        | [] => [('.' :: acc).reverse]
        | d :: rest2 =>
            if jsWs d then acc.reverse :: sdGo true [] (d :: rest2)
            else sdGo false ('.' :: acc) (d :: rest2)
      else if skip && jsWs c then sdGo skip acc rest
      else sdGo false (c :: acc) rest

/-- The `\.\s+` split used for sentences throughout the source. -/
def splitDot (l : List Char) : List (List Char) := sdGo false [] l

/-- Number of `". "`-delimited pieces, the source's
`x.split(/\.\s+/).length` sentence count. -/
def splitDotLen (l : List Char) : Nat := (splitDot l).length

/-! ## Sentence-level paragraph reconstruction (formatText lines 140-174) -/

/-- Literal (case-sensitive) match of a pattern at the head of a list. -/
def startsWithL : List Char → List Char → Bool
  | [], _ => true
  | _ :: _, [] => false
  | p :: ps, c :: cs => p = c && startsWithL ps cs

/-- The `newSectionKeywords` table of shouldStartNewParagraph (lines 233-238). -/
def newSectionKeywords : List (List Char) :=
  ["SYNOPSIS".data, "DISCUSSION".data, "TONIGHT".data, "TOMORROW".data,
   "SUNDAY".data, "MONDAY".data, "TUESDAY".data, "WEDNESDAY".data,
   "THURSDAY".data, "FRIDAY".data, "SATURDAY".data,
   "MARINE".data, "AVIATION".data, "FIRE WEATHER".data, "SHORT TERM".data,
   "LONG TERM".data, "NEAR TERM".data, "EXTENDED".data, "FORECAST".data,
   "OUTLOOK".data, "UPDATE".data]

/-- The keyword test of shouldStartNewParagraph (lines 240-244): the
upper-cased sentence starts with a section keyword (optionally followed by
an ellipsis, a redundant but faithful second disjunct). -/
def isSectionStart (sentence : List Char) : Bool :=
  newSectionKeywords.any fun k =>
    startsWithL k (sentence.map upperC) ||
      startsWithL (k ++ ['.', '.', '.']) (sentence.map upperC)

/-- The source's shouldStartNewParagraph (lines 229-245): false on an empty
accumulating paragraph, else the keyword test. -/
def shouldStartNewParagraph (sentence cur : List Char) : Bool :=
  if cur = [] then false else isSectionStart sentence

/-- Shared preprocessing of the three sentence loops (lines 145-152, 257-263,
293-299): each sentence is trimmed; an empty trimmed sentence stays empty
(the loop `continue`s on it before the period is restored); every other
sentence except the last gets its period back. -/
def prepare : List (List Char) → List (List Char)
  | [] => []
  | s :: rest =>
      match rest with
      | [] => [jsTrim s]
      | _ :: _ => (if jsTrim s = [] then [] else jsTrim s ++ ['.']) :: prepare rest

/-- The loop of the sentence-based fallback (lines 145-174): `cur` is
`currentParagraph`, `paras` the accumulated paragraphs.  A keyword sentence
pushes the (trimmed, nonempty) accumulator and restarts it; otherwise the
sentence is appended with a space; after either step the accumulator is
flushed when its `\.\s+`-split length reaches 3. -/
def recGo : List (List Char) → List Char → List (List Char) → List (List Char)
  | [], cur, paras => if jsTrim cur = [] then paras else paras ++ [jsTrim cur]
  | s :: rest, cur, paras =>
      if s = [] then recGo rest cur paras
      else
        let step :=
          if shouldStartNewParagraph s cur then
            (s, if jsTrim cur = [] then paras else paras ++ [jsTrim cur])
          else (cur ++ (if cur = [] then s else ' ' :: s), paras)
        if 3 ≤ splitDotLen step.1 then recGo rest [] (step.2 ++ [jsTrim step.1])
        else recGo rest step.1 step.2

/-- Sentence-based paragraph reconstruction on a cleaned text (path b). -/
def reconstruct (cleaned : List Char) : List (List Char) :=
  recGo (prepare (splitDot cleaned)) [] []

/-- The loop of forceParagraphBreaks (lines 257-273): pushes the accumulator
before appending once it holds at least 2 `\.\s+`-split pieces, ignoring
section keywords. -/
def fpGo : List (List Char) → List Char → List (List Char) → List (List Char)
  | [], cur, paras => if jsTrim cur = [] then paras else paras ++ [jsTrim cur]
  | s :: rest, cur, paras =>
      if s = [] then fpGo rest cur paras
      else if cur ≠ [] ∧ 2 ≤ splitDotLen cur then fpGo rest s (paras ++ [jsTrim cur])
      else fpGo rest (cur ++ (if cur = [] then s else ' ' :: s)) paras

/-- The source's forceParagraphBreaks (lines 252-281). -/
def forceParagraphBreaks (text : List Char) : List (List Char) :=
  fpGo (prepare (splitDot text)) [] []

/-- The loop of breakLongParagraph (lines 293-316): flushes the chunk when
appending the next sentence would exceed 350 characters or the sentence
starts a new section. -/
def blpGo : List (List Char) → List Char → List (List Char) → List (List Char)
  | [], cur, chunks => if jsTrim cur = [] then chunks else chunks ++ [jsTrim cur]
  | s :: rest, cur, chunks =>
      if s = [] then blpGo rest cur chunks
      else if cur ≠ [] ∧ (350 < (cur ++ ' ' :: s).length ∨ shouldStartNewParagraph s cur) then
        blpGo rest s (chunks ++ [jsTrim cur])
      else blpGo rest (cur ++ (if cur = [] then s else ' ' :: s)) chunks

/-- The chunk list of breakLongParagraph (line 290: `chunks`). -/
def breakChunks (p : List Char) : List (List Char) :=
  blpGo (prepare (splitDot p)) [] []

/-- Concatenation of a list of lists (JavaScript `.join('')`). -/
def joinL {α : Type} : List (List α) → List α
  | [] => []
  | x :: xs => x ++ joinL xs

/-- HTML paragraph wrapping used throughout formatText. -/
def wrapP (p : List Char) : List Char := "<p>".data ++ p ++ "</p>".data

/-- The source's breakLongParagraph (lines 288-319): chunking plus wrapping. -/
def breakLongParagraph (p : List Char) : List Char :=
  joinL ((breakChunks p).map wrapP)

/-! ## Paragraph assembly (formatText lines 135-201) -/

/-- The `paragraphs` value as of line 180: tier-a pieces trimmed and filtered
to length > 15 when the split found breaks, else the sentence fallback. -/
def segmentInitial (cleaned : List Char) : List (List Char) :=
  if (initialSplit cleaned).length = 1 then reconstruct cleaned
  else ((initialSplit cleaned).map jsTrim).filter fun p => 15 < p.length

/-- The `paragraphs` value as of line 186: a single paragraph longer than
600 characters is re-broken by forceParagraphBreaks. -/
def segmentParas (cleaned : List Char) : List (List Char) :=
  match segmentInitial cleaned with
  | [p] => if 600 < p.length then forceParagraphBreaks p else [p]
  | ps => ps

/-- Newline to `<br>` conversion of the fallback path (line 200). -/
def replaceNlBr : List Char → List Char
  | [] => []
  | c :: rest =>
      if c = '\n' then "<br>".data ++ replaceNlBr rest else c :: replaceNlBr rest

/-- The `formatted` value as of line 196: each paragraph wrapped, long ones
split by breakLongParagraph first. -/
def assembleFormatted (paras : List (List Char)) : List Char :=
  joinL (paras.map fun p => if 700 < p.length then breakLongParagraph p else wrapP p)

/-- The markup before highlighting (lines 121-201), including the line 199
fallback that wraps the cleaned text verbatim. -/
def preHighlight (text : List Char) : List Char :=
  let cleaned := cleanTextL text
  let paras := segmentParas cleaned
  let formatted := assembleFormatted paras
  if formatted = [] ∨ paras.length = 0 then wrapP (replaceNlBr cleaned) else formatted

/-- The pre-highlighting paragraph fragments emitted by formatText: the
contents of the `<p>` elements of `preHighlight` (chunks for paragraphs over
700 characters, the paragraph itself otherwise, or the converted cleaned
text on the fallback path). -/
def preFragments (text : List Char) : List (List Char) :=
  if text = [] then []
  else
    let cleaned := cleanTextL text
    let paras := segmentParas cleaned
    let formatted := assembleFormatted paras
    if formatted = [] ∨ paras.length = 0 then [replaceNlBr cleaned]
    else joinL (paras.map fun p => if 700 < p.length then breakChunks p else [p])

/-! ## Highlighting (formatText lines 204-218)

Seven global case-insensitive replaces wrapping word-bounded vocabulary in
markup.  All alternatives are literals (after expanding the `?` quantifiers
in source order), so each replace is a leftmost scan trying the alternation
in order at every position, subject to the surrounding `\b` assertions.
Rules 6 and 7 prepend `\d+\s*` to the alternation; since no unit starts
with a digit or whitespace, the greedy runs never backtrack. -/

/-- Digits, JavaScript `\d`. -/
def isDigit (c : Char) : Bool := '0' ≤ c && c ≤ '9'

/-- Word-boundary test after a matched alternative `a`: the remainder of the
input continues with a character of the opposite word-class from the last
matched character (end of input counts as non-word). -/
def tailBoundary (a l : List Char) : Bool :=
  match (l.drop a.length).head? with
  | none => wordChar (a.getLastD ' ')
  | some c => wordChar (a.getLastD ' ') != wordChar c

/-- First alternative (in source order) matching at this position with a
word boundary after it; returns its length. -/
def tryAlts (alts : List (List Char)) (l : List Char) : Option Nat :=
  match alts with
  | [] => none
  | a :: rest =>
      if matchCI a l && tailBoundary a l then some a.length else tryAlts rest l

/-- Scanner for the literal-alternation rules (replaces 1-5).  `prevW` is the
word-class of the previous character (false at the start of input); every
alternative starts with a word character, so the leading `\b` requires a
non-word predecessor.  Fuel `length + 1` suffices: every step consumes at
least one character. -/
def hlGo (alts : List (List Char)) (opn cls : List Char) :
    Nat → Bool → List Char → List Char
  | 0, _, l => l
  | _ + 1, _, [] => []
  | f + 1, prevW, l@(c :: rest) =>
      if !prevW && wordChar c then
        match tryAlts alts l with
        | some n =>
            opn ++ l.take n ++ cls ++
              hlGo alts opn cls f (wordChar ((l.take n).getLastD c)) (l.drop n)
        | none => c :: hlGo alts opn cls f (wordChar c) rest
      else c :: hlGo alts opn cls f (wordChar c) rest

/-- One literal-alternation replace over a whole string. -/
def hlRun (alts : List (List Char)) (opn cls : List Char) (l : List Char) : List Char :=
  hlGo alts opn cls (l.length + 1) false l

/-- Scanner for the measurement rules (replaces 6-7), pattern
`\b(\d+\s*(?:units))\b`: a maximal digit run with a non-word predecessor,
a maximal whitespace run, then the unit alternation with its own trailing
boundary. -/
def measGo (units : List (List Char)) (opn cls : List Char) :
    Nat → Bool → List Char → List Char
  | 0, _, l => l
  | _ + 1, _, [] => []
  | f + 1, prevW, l@(c :: rest) =>
      if !prevW && isDigit c then
        let nd := (l.takeWhile isDigit).length
        let nw := ((l.drop nd).takeWhile jsWs).length
        match tryAlts units (l.drop (nd + nw)) with
        | some n =>
            let m := nd + nw + n
            opn ++ l.take m ++ cls ++
              measGo units opn cls f (wordChar ((l.take m).getLastD c)) (l.drop m)
        | none => c :: measGo units opn cls f (wordChar c) rest
      else c :: measGo units opn cls f (wordChar c) rest

/-- One measurement replace over a whole string. -/
def measRun (units : List (List Char)) (opn cls : List Char) (l : List Char) : List Char :=
  measGo units opn cls (l.length + 1) false l

/-- Replace 1 vocabulary: time periods (line 206). -/
def timeWords : List (List Char) :=
  ["TODAY".data, "TONIGHT".data, "TOMORROW".data, "THIS EVENING".data,
   "THIS MORNING".data, "THIS AFTERNOON".data, "SUNDAY".data, "MONDAY".data,
   "TUESDAY".data, "WEDNESDAY".data, "THURSDAY".data, "FRIDAY".data,
   "SATURDAY".data]

/-- Replace 2 vocabulary: weather systems (line 208). -/
def systemWords : List (List Char) :=
  ["LOW PRESSURE".data, "HIGH PRESSURE".data, "FRONT".data, "TROUGH".data,
   "RIDGE".data, "STORM SYSTEM".data, "WEATHER SYSTEM".data, "CYCLONE".data,
   "ANTICYCLONE".data]

/-- Replace 3 vocabulary: weather conditions (line 210). -/
def conditionWords : List (List Char) :=
  ["RAIN".data, "SNOW".data, "THUNDERSTORMS".data, "FOG".data, "WIND".data,
   "GALE".data, "STORM".data, "CLEAR".data, "CLOUDY".data,
   "PARTLY CLOUDY".data, "OVERCAST".data, "SHOWERS".data, "DRIZZLE".data,
   "VISIBILITY".data, "PRECIPITATION".data]

/-- Replace 4 vocabulary: marine conditions (line 212). -/
def marineWords : List (List Char) :=
  ["SEAS".data, "WAVES".data, "SWELL".data, "CHOPPY".data, "ROUGH".data,
   "CALM".data, "SURF".data, "BREAKERS".data, "SIGNIFICANT WAVE HEIGHT".data,
   "COMBINED SEAS".data]

/-- Replace 5 vocabulary: compass directions (line 214); the `[NSEW]` class
comes first in the pattern, then the literal alternatives in source order. -/
def directionWords : List (List Char) :=
  ["N".data, "S".data, "E".data, "W".data, "NE".data, "NW".data, "SE".data,
   "SW".data, "NORTH".data, "SOUTH".data, "EAST".data, "WEST".data,
   "NORTHEAST".data, "NORTHWEST".data, "SOUTHEAST".data, "SOUTHWEST".data]

/-- Replace 6 units (line 216), `?` quantifiers expanded in source order
(longer expansion first, as the greedy `?` tries the character). -/
def measureUnits : List (List Char) :=
  ["MPH".data, "KT".data, "KNOTS".data, "KNOT".data, "FT".data, "FEET".data,
   "INCHES".data, "INCHE".data, "IN".data, "MILES".data, "MILE".data,
   "NAUTICAL MILES".data, "NAUTICAL MILE".data]

/-- Replace 7 units (line 218): `DEGREES?|°F?|°C?` expanded in source
order. -/
def degreeUnits : List (List Char) :=
  ["DEGREES".data, "DEGREE".data, "°F".data, "°".data, "°C".data, "°".data]

/-- The seven highlighting replaces of lines 204-218, in order. -/
def highlight (l : List Char) : List Char :=
  let r1 := hlRun timeWords "<strong>".data "</strong>".data l
  let r2 := hlRun systemWords "<strong>".data "</strong>".data r1
  let r3 := hlRun conditionWords "<em>".data "</em>".data r2
  let r4 := hlRun marineWords "<em>".data "</em>".data r3
  let r5 := hlRun directionWords "<span class=\"wind-direction\">".data "</span>".data r4
  let r6 := measRun measureUnits "<span class=\"weather-measurement\">".data "</span>".data r5
  measRun degreeUnits "<span class=\"weather-measurement\">".data "</span>".data r6

/-! ## formatText (lines 117-221) -/

/-- The whole text formatter over character lists: empty input short-circuits
to the empty string (line 118), otherwise cleaning, segmentation, assembly
and highlighting run in order. -/
def formatTextL (text : List Char) : List Char :=
  if text = [] then [] else highlight (preHighlight text)

/-- The source's formatText at the string level. -/
def formatText (s : String) : String := String.mk (formatTextL s.data)

/-! ## Renderer (lines 83-110) and date formatter (lines 326-339)

The renderer reads one `currentData` snapshot and produces one of the three
display states written into the container (`showLoading`, `showError`, or the
header/body markup).  `new Date(updated)` delegates to the host Date parser;
we model a Date object by its time value, `none` standing for an invalid
date (NaN time value). -/

/-- The `properties` payload of a bulletin.  `updated` is carried as the time
value that `new Date(updated)` parses to (`none` when unparseable). -/
structure DiscussionProps where
  office : String
  officeName : Option String
  text : String
  updated : Option Int
  issuedTime : Option String

/-- A received bulletin; `properties` may be absent. -/
structure DiscussionData where
  properties : Option DiscussionProps

/-- The three display states the widget can write into its container. -/
inductive Display where
  | loading
  | error (message : String)
  | content (title time body : String)
deriving DecidableEq

/-- Argument to formatDate: JavaScript `!date` distinguishes a nullish value
from a Date object, which carries a time value (`none` = Invalid Date). -/
inductive DateArg where
  | nullish
  | dateObj (timeValue : Option Int)

/-- Short month names of the en-US locale. -/
def monthShort (m : Nat) : String :=
  ["Jan", "Feb", "Mar", "Apr", "May", "Jun", "Jul", "Aug", "Sep", "Oct",
   "Nov", "Dec"].getD (m - 1) ""

/-- Two-digit zero padding (the `2-digit` option). -/
def pad2 (n : Nat) : String := if n < 10 then "0" ++ toString n else toString n

/-- Gregorian civil date (year, month, day) from days since the Unix epoch. -/
def civilFromDays (z0 : Int) : Int × Nat × Nat :=
  let z := z0 + 719468
  let era := z.fdiv 146097
  let doe := (z - era * 146097).toNat
  let yoe := (doe - doe / 1460 + doe / 36524 - doe / 146096) / 365
  let doy := doe - (365 * yoe + yoe / 4 - yoe / 100)
  let mp := (5 * doy + 2) / 153
  let d := doy - (153 * mp + 2) / 5 + 1
  let m := if mp < 10 then mp + 3 else mp - 9
  (era * 400 + yoe + (if 10 ≤ mp then 1 else 0), m, d)

/-- A concrete en-US rendering of a valid time value (UTC), of the
`"Mon D, HH:MM AM/PM"` shape produced by the source's
`toLocaleDateString('en-US', ...)` options; the exact digits are host-,
locale- and zone-dependent and are not relied on by any claim. -/
def fmtValidEnUS (t : Int) : String :=
  let days := t.fdiv 86400000
  let ms := (t - days * 86400000).toNat
  let hod := ms / 3600000
  let minute := ms % 3600000 / 60000
  let h12 := if hod % 12 = 0 then 12 else hod % 12
  let ymd := civilFromDays days
  monthShort ymd.2.1 ++ " " ++ toString ymd.2.2 ++ ", " ++
    pad2 h12 ++ ":" ++ pad2 minute ++ (if hod < 12 then " AM" else " PM")

/-- ECMA-402 Date.prototype.toLocaleDateString: when the receiver's time
value is NaN the result is the string "Invalid Date"; no exception is
thrown. -/
def toLocaleDateStringEnUS : Option Int → String
  | none => "Invalid Date"
  | some t => fmtValidEnUS t

/-- The source's formatDate (lines 326-339): nullish arguments short-circuit
to "Unknown"; otherwise `new Date(date).toLocaleDateString(...)` runs inside
a try/catch whose catch branch is unreachable, since toLocaleDateString
returns "Invalid Date" for an invalid date instead of throwing. -/
def formatDate : DateArg → String
  | .nullish => "Unknown"
  | .dateObj t => toLocaleDateStringEnUS t

/-- The header timestamp of render (line 101): a truthy `issuedTime` wins,
else formatDate on the Date parsed from `updated`. -/
def headerTime (p : DiscussionProps) : String :=
  match p.issuedTime with
  | some it => if it = "" then formatDate (.dateObj p.updated) else it
  | none => formatDate (.dateObj p.updated)

/-- The header title of render (line 100): `officeName || office`. -/
def headerTitle (p : DiscussionProps) : String :=
  "Forecast Discussion - " ++
    (match p.officeName with
     | some n => if n = "" then p.office else n
     | none => p.office)

/-- The source's render (lines 83-110) as a function from the widget's
`currentData` snapshot to the display state it writes. -/
def render (currentData : Option DiscussionData) : Display :=
  match currentData with
  | none => .loading
  | some d =>
      match d.properties with
      | none => .loading
      | some p =>
          if p.text = "" ∨ jsTrim p.text.data = [] then
            .error "No discussion available"
          else
            .content (headerTitle p) (headerTime p) (formatText p.text)

/-! ## Visible text: tag stripping and whitespace erasure -/

/-- Remove `<...>` tag spans; the flag is true while inside a tag. -/
def stripTagsGo : Bool → List Char → List Char
  | _, [] => []
  | true, c :: rest =>
      if c = '>' then stripTagsGo false rest else stripTagsGo true rest
  | false, c :: rest =>
      if c = '<' then stripTagsGo true rest else c :: stripTagsGo false rest

/-- Visible text of a markup fragment: everything outside `<...>` spans. -/
def stripTagsL (l : List Char) : List Char := stripTagsGo false l

/-- Erase all whitespace; two strings are equal up to whitespace
normalization only if their erasures agree. -/
def stripWs (l : List Char) : List Char := l.filter fun c => !jsWs c

/-! ## Supporting lemmas -/

/-- Trimming an all-whitespace list gives the empty list. -/
theorem jsTrim_eq_nil_of_allWs {l : List Char} (h : ∀ c ∈ l, jsWs c = true) :
    jsTrim l = [] := by
  have h1 : trimL l = [] := List.dropWhile_eq_nil_iff.mpr h
  simp only [jsTrim, h1]
  rfl

/-! ## Claims C2, C3, C7, C9 -/

/-- C2: whenever the bulletin's `properties.text` is empty or consists only
of whitespace, render produces the error display with message
"No discussion available" (and hence neither the loading state nor the
header/body content). -/
theorem c2_blank_text_shows_error (p : DiscussionProps)
    (h : ∀ c ∈ p.text.data, jsWs c = true) :
    render (some ⟨some p⟩) = .error "No discussion available" := by
  have : jsTrim p.text.data = [] := jsTrim_eq_nil_of_allWs h
  simp [render, this]

/-- Witness for C2 at a concrete whitespace-only bulletin text. -/
theorem c2_witness :
    render (some ⟨some ⟨"AJK", none, " \n ", none, none⟩⟩) =
      .error "No discussion available" :=
  c2_blank_text_shows_error _ (by decide)

/-- C3: the code evaluated at the failing input.  For an unparseable
`updated` value, `new Date(updated)` is an invalid Date; formatDate then
returns "Invalid Date" (toLocaleDateString does not throw on an invalid
date, so the catch that would produce "Unknown" never runs), contradicting
the claim that every invalid input yields exactly "Unknown". -/
theorem c3_invalid_date_not_unknown :
    formatDate (.dateObj none) = "Invalid Date" ∧
      formatDate (.dateObj none) ≠ "Unknown" := by
  exact ⟨rfl, by decide⟩

set_option maxRecDepth 10000 in
/-- C7: on the spec's example sentence, formatText wraps "LOW PRESSURE" and
"TONIGHT" in strong emphasis and "25 KT" in a weather-measurement span (the
full output is computed exactly; "WINDS" stays unhighlighted since the
vocabulary only contains the singular "WIND"). -/
theorem c7_highlighting_example :
    formatText "LOW PRESSURE moves through TONIGHT with WINDS to 25 KT." =
      "<p><strong>LOW PRESSURE</strong> moves through <strong>TONIGHT</strong> with WINDS to <span class=\"weather-measurement\">25 KT</span>.</p>" := by
  decide

/-- C9: with no current data, or data without a `properties` field, render
shows the loading state and neither header nor body. -/
theorem c9_missing_data_shows_loading (d : Option DiscussionData)
    (h : d = none ∨ ∃ b, d = some b ∧ b.properties = none) :
    render d = .loading := by
  rcases h with h | ⟨b, rfl, hb⟩
  · subst h; rfl
  · simp [render, hb]

/-- Witness for C9 at both concrete missing-data states. -/
theorem c9_witness :
    render none = .loading ∧ render (some ⟨none⟩) = .loading :=
  ⟨c9_missing_data_shows_loading none (Or.inl rfl),
   c9_missing_data_shows_loading (some ⟨none⟩) (Or.inr ⟨⟨none⟩, rfl, rfl⟩)⟩

/-! ## Whitespace-only inputs (claim C10) -/

/-- The usa.gov scanner only ever emits characters of its input. -/
theorem ugGo_subset : ∀ (f : Nat) (m : Bool) (l : List Char),
    ∀ c ∈ ugGo f m l, c ∈ l := by
  intro f
  induction f with
  | zero => intro m l c hc; simpa [ugGo] using hc
  | succ f ih =>
    intro m l c hc
    match m, l with
    | m, [] => simp [ugGo] at hc
    | true, d :: rest =>
      rw [ugGo] at hc
      split at hc
      · exact ih false _ c hc
      · exact List.mem_cons_of_mem _ (ih true rest c hc)
    | false, d :: rest =>
      rw [ugGo] at hc
      split at hc
      · exact List.mem_of_mem_drop (ih true _ c hc)
      · rcases List.mem_cons.mp hc with h | h
        · exact h ▸ List.mem_cons_self _ _
        · exact List.mem_cons_of_mem _ (ih false rest c h)

/-- usaGov only emits characters of its input. -/
theorem usaGov_subset {l : List Char} {c : Char} (h : c ∈ usaGov l) : c ∈ l :=
  ugGo_subset _ false l c h

/-- The bullet-line scanner preserves all-whitespace inputs. -/
theorem blGo_allWs : ∀ (l : List Char) (st : BLState) (pend : List Char),
    (∀ c ∈ pend, jsWs c = true) → (∀ c ∈ l, jsWs c = true) →
    ∀ c ∈ blGo st pend l, jsWs c = true := by
  intro l
  induction l with
  | nil =>
    intro st pend hp _ c hc
    cases st <;> simp only [blGo] at hc
    · exact hp c (List.mem_reverse.mp hc)
    all_goals simp at hc
  | cons d rest ih =>
    intro st pend hp hl c hc
    have hd : jsWs d = true := hl d (List.mem_cons_self _ _)
    have hrest : ∀ c ∈ rest, jsWs c = true := fun c h => hl c (List.mem_cons_of_mem _ h)
    cases st
    case lineStart =>
      rw [blGo] at hc
      by_cases hb : bullet2 d = true
      · rw [if_pos hb] at hc
        exact ih _ _ (by simp) hrest c hc
      · rw [if_neg hb] at hc
        by_cases hw : jsWs d = true
        · rw [if_pos hw] at hc
          refine ih _ _ (fun x hx => ?_) hrest c hc
          rcases List.mem_cons.mp hx with h | h
          · exact h ▸ hd
          · exact hp x h
        · rw [if_neg hw] at hc
          rcases List.mem_append.mp hc with h | h
          · exact hp c (List.mem_reverse.mp h)
          · rcases List.mem_cons.mp h with h | h
            · exact h ▸ hd
            · exact ih _ _ (by simp) hrest c h
    case mid =>
      rw [blGo] at hc
      by_cases hn : d = '\n'
      · rw [if_pos hn] at hc
        rcases List.mem_cons.mp hc with h | h
        · subst h; decide
        · exact ih _ _ (by simp) hrest c h
      · rw [if_neg hn] at hc
        rcases List.mem_cons.mp hc with h | h
        · exact h ▸ hd
        · exact ih _ _ (by simp) hrest c h
    case delWs =>
      rw [blGo] at hc
      by_cases hw : jsWs d = true
      · rw [if_pos hw] at hc; exact ih _ _ (by simp) hrest c hc
      · rw [if_neg hw] at hc; exact ih _ _ (by simp) hrest c hc
    case delTxt =>
      rw [blGo] at hc
      by_cases hn : d = '\n'
      · rw [if_pos hn] at hc
        rcases List.mem_cons.mp hc with h | h
        · subst h; decide
        · exact ih _ _ (by simp) hrest c h
      · rw [if_neg hn] at hc; exact ih _ _ (by simp) hrest c hc

/-- The bullet-character scanner preserves all-whitespace inputs. -/
theorem bcGo_allWs : ∀ (l : List Char) (st : Bool) (pend : List Char),
    (∀ c ∈ pend, jsWs c = true) → (∀ c ∈ l, jsWs c = true) →
    ∀ c ∈ bcGo st pend l, jsWs c = true := by
  intro l
  induction l with
  | nil =>
    intro st pend hp _ c hc
    cases st <;> simp only [bcGo] at hc
    · exact hp c (List.mem_reverse.mp hc)
    · simp at hc
  | cons d rest ih =>
    intro st pend hp hl c hc
    have hd : jsWs d = true := hl d (List.mem_cons_self _ _)
    have hrest : ∀ c ∈ rest, jsWs c = true := fun c h => hl c (List.mem_cons_of_mem _ h)
    cases st
    case false =>
      rw [bcGo] at hc
      by_cases hb : bullet4 d = true
      · rw [if_pos hb] at hc
        rcases List.mem_cons.mp hc with h | h
        · subst h; decide
        · exact ih _ _ (by simp) hrest c h
      · rw [if_neg hb] at hc
        by_cases hw : jsWs d = true
        · rw [if_pos hw] at hc
          refine ih _ _ (fun x hx => ?_) hrest c hc
          rcases List.mem_cons.mp hx with h | h
          · exact h ▸ hd
          · exact hp x h
        · rw [if_neg hw] at hc
          rcases List.mem_append.mp hc with h | h
          · exact hp c (List.mem_reverse.mp h)
          · rcases List.mem_cons.mp h with h | h
            · exact h ▸ hd
            · exact ih _ _ (by simp) hrest c h
    case true =>
      rw [bcGo] at hc
      by_cases hw : jsWs d = true
      · rw [if_pos hw] at hc; exact ih _ _ (by simp) hrest c hc
      · rw [if_neg hw] at hc
        by_cases hb : bullet4 d = true
        · rw [if_pos hb] at hc
          rcases List.mem_cons.mp hc with h | h
          · subst h; decide
          · exact ih _ _ (by simp) hrest c h
        · rw [if_neg hb] at hc
          rcases List.mem_cons.mp hc with h | h
          · exact h ▸ hd
          · exact ih _ _ (by simp) hrest c h

/-- The horizontal-whitespace collapse preserves all-whitespace inputs. -/
theorem hsRun_allWs : ∀ (l : List Char) (b : Bool),
    (∀ c ∈ l, jsWs c = true) → ∀ c ∈ hsRun b l, jsWs c = true := by
  intro l
  induction l with
  | nil => intro b _ c hc; simp [hsRun] at hc
  | cons d rest ih =>
    intro b hl c hc
    have hd : jsWs d = true := hl d (List.mem_cons_self _ _)
    have hrest : ∀ c ∈ rest, jsWs c = true := fun c h => hl c (List.mem_cons_of_mem _ h)
    rw [hsRun] at hc
    split at hc
    · split at hc
      · exact ih _ hrest c hc
      · rcases List.mem_cons.mp hc with h | h
        · subst h; decide
        · exact ih _ hrest c h
    · rcases List.mem_cons.mp hc with h | h
      · exact h ▸ hd
      · exact ih _ hrest c h

/-- The newline-indent removal preserves all-whitespace inputs. -/
theorem nlHs_allWs : ∀ (l : List Char) (b : Bool),
    (∀ c ∈ l, jsWs c = true) → ∀ c ∈ nlHs b l, jsWs c = true := by
  intro l
  induction l with
  | nil => intro b _ c hc; simp [nlHs] at hc
  | cons d rest ih =>
    intro b hl c hc
    have hd : jsWs d = true := hl d (List.mem_cons_self _ _)
    have hrest : ∀ c ∈ rest, jsWs c = true := fun c h => hl c (List.mem_cons_of_mem _ h)
    rw [nlHs] at hc
    split at hc
    · exact ih _ hrest c hc
    · rcases List.mem_cons.mp hc with h | h
      · exact h ▸ hd
      · exact ih _ hrest c h

/-- The newline-run collapse preserves all-whitespace inputs. -/
theorem nl3_allWs : ∀ (l : List Char) (k : Nat),
    (∀ c ∈ l, jsWs c = true) → ∀ c ∈ nl3 k l, jsWs c = true := by
  intro l
  induction l with
  | nil => intro k _ c hc; simp [nl3] at hc
  | cons d rest ih =>
    intro k hl c hc
    have hd : jsWs d = true := hl d (List.mem_cons_self _ _)
    have hrest : ∀ c ∈ rest, jsWs c = true := fun c h => hl c (List.mem_cons_of_mem _ h)
    rw [nl3] at hc
    split at hc
    · split at hc
      · exact ih _ hrest c hc
      · rcases List.mem_cons.mp hc with h | h
        · subst h; decide
        · exact ih _ hrest c h
    · rcases List.mem_cons.mp hc with h | h
      · exact h ▸ hd
      · exact ih _ hrest c h

/-- Cleaning an all-whitespace text yields the empty text. -/
theorem cleanTextL_eq_nil_of_allWs {l : List Char}
    (h : ∀ c ∈ l, jsWs c = true) : cleanTextL l = [] := by
  apply jsTrim_eq_nil_of_allWs
  intro c hc
  exact nl3_allWs _ _ (fun c hc => nlHs_allWs _ _
    (fun c hc => hsRun_allWs _ _ (fun c hc => bcGo_allWs _ _ _ (by simp)
      (fun c hc => blGo_allWs _ _ _ (by simp)
        (fun c hc => h c (usaGov_subset hc)) c hc) c hc) c hc) c hc) c hc

/-- With empty cleaned text the formatter takes the fallback and emits one
empty paragraph element. -/
theorem formatTextL_of_clean_nil {t : List Char} (hne : t ≠ [])
    (hc : cleanTextL t = []) : formatTextL t = "<p></p>".data := by
  rw [formatTextL, if_neg hne]
  simp only [preHighlight, hc]
  decide

/-- C10: a nonempty all-whitespace input cleans to the empty string and the
fallback wraps it, producing exactly `<p></p>`, while the empty input
returns the empty string, so the two are distinguishable at formatText's
interface. -/
theorem c10_whitespace_vs_empty (s : String) (h1 : s ≠ "")
    (h2 : ∀ c ∈ s.data, jsWs c = true) :
    formatText s = "<p></p>" ∧ formatText "" = "" ∧ formatText s ≠ formatText "" := by
  have hd : s.data ≠ [] := by
    intro h
    apply h1
    cases s
    simp_all
  have h3 : formatText s = "<p></p>" := by
    rw [formatText, formatTextL_of_clean_nil hd (cleanTextL_eq_nil_of_allWs h2)]
  exact ⟨h3, rfl, by rw [h3]; decide⟩

/-- Witness for C10 at the one-space input. -/
theorem c10_witness :
    formatText " " = "<p></p>" ∧ formatText "" = "" ∧
      formatText " " ≠ formatText "" :=
  c10_whitespace_vs_empty " " (by decide) (by decide)

/-! ## Counterexamples for claims C1, C5, C8 -/

set_option maxRecDepth 10000 in
/-- C1 as stated is false: tier-a segmentation drops trimmed pieces of at
most 15 characters, so the visible text "Hi." of the second paragraph is
missing from the output even after erasing all whitespace. -/
theorem c1_counterexample :
    stripWs (stripTagsL (formatText "This is a longer first paragraph.\n\nHi.").data) ≠
      stripWs (cleanTextL "This is a longer first paragraph.\n\nHi.".data) := by
  decide

/-- Input for the C5 counterexample: fifty short paragraphs, every
`". "`-delimited sentence far below any length bound, total length far
above 700. -/
def c5Input : String := String.mk (joinL (List.replicate 50 "Go west today.\n\n".data))

set_option maxRecDepth 100000 in
/-- C5 as stated is false: when every tier-a piece is at most 15 characters
all paragraphs are dropped, and the fallback of line 199 wraps the whole
cleaned text as a single emitted fragment, bypassing breakLongParagraph;
here every sentence is 14 characters yet the emitted fragment exceeds 700
characters. -/
theorem c5_counterexample :
    (∀ st ∈ splitDot (cleanTextL c5Input.data), st.length ≤ 350) ∧
      ∃ f ∈ preFragments c5Input.data, 700 < f.length := by
  decide

/-- C8 as stated is false: cleaning is not idempotent.  Replace 3 turns the
`▪` of `"▪ - x\nhello"` into a space, exposing a line whose first non-blank
character is `-`; the second cleaning pass then deletes that line. -/
theorem c8_counterexample :
    cleanText (cleanText "▪ - x\nhello") ≠ cleanText "▪ - x\nhello" := by
  decide

/-! ## Characterization of the tier-a split (claim C6) -/

/-- No run of 2+ newlines and no run of 3+ dots, i.e. no match of the
tier-a separator regex `\n\n+|\.{3,}`. -/
def noBreakRun : List Char → Bool
  | [] => true
  | [_] => true
  | a :: b :: rest =>
      if a = '\n' ∧ b = '\n' then false
      else if a = '.' ∧ b = '.' ∧ rest.head? = some '.' then false
      else noBreakRun (b :: rest)

/-- Shape of a tier-a separator: a run of at least two newlines or a run of
at least three dots. -/
def sepShape (l : List Char) : Bool :=
  (2 ≤ l.length && l.all (· = '\n')) || (3 ≤ l.length && l.all (· = '.'))

/-- Interleave pieces and separators back into one text. -/
def interleave : List (List Char) → List (List Char) → List Char
  | [], _ => []
  | p :: _, [] => p
  | p :: ps, q :: qs => p ++ q ++ interleave ps qs

/-- Pieces and separators of the tier-a split glue back to the input.  The
statement is generalized over the scanner state: in the four content states
the pending characters sit between the accumulated piece and the rest; in
the two separator states the next emitted separator extends the separator
accumulator. -/
theorem isGo_glue : ∀ (l acc sacc : List Char),
    (interleave (isGo .norm acc l) (isGoS .norm sacc l) = acc.reverse ++ l) ∧
    (interleave (isGo .nl1 acc l) (isGoS .nl1 sacc l) = acc.reverse ++ '\n' :: l) ∧
    (interleave (isGo .dot1 acc l) (isGoS .dot1 sacc l) = acc.reverse ++ '.' :: l) ∧
    (interleave (isGo .dot2 acc l) (isGoS .dot2 sacc l) =
      acc.reverse ++ '.' :: '.' :: l) ∧
    (∃ q qs, isGoS .nlSep sacc l = q :: qs ∧
      q ++ interleave (isGo .nlSep acc l) qs = sacc.reverse ++ l) ∧
    (∃ q qs, isGoS .dotSep sacc l = q :: qs ∧
      q ++ interleave (isGo .dotSep acc l) qs = sacc.reverse ++ l) := by
  intro l
  induction l with
  | nil =>
    intro acc sacc
    refine ⟨?_, ?_, ?_, ?_, ⟨sacc.reverse, [], rfl, ?_⟩,
      ⟨sacc.reverse, [], rfl, ?_⟩⟩ <;> simp [isGo, isGoS, interleave]
  | cons c rest ih =>
    intro acc sacc
    refine ⟨?_, ?_, ?_, ?_, ?_, ?_⟩
    · by_cases hn : c = '\n'
      · subst hn
        simpa [isGo, isGoS] using (ih acc []).2.1
      · by_cases hd : c = '.'
        · subst hd
          simpa [isGo, isGoS] using (ih acc []).2.2.1
        · simpa [isGo, isGoS, hn, hd] using (ih (c :: acc) []).1
    · by_cases hn : c = '\n'
      · subst hn
        obtain ⟨q, qs, hq, hg⟩ := (ih [] ['\n', '\n']).2.2.2.2.1
        simp [isGo, isGoS, hq, interleave, hg]
      · by_cases hd : c = '.'
        · subst hd
          simpa [isGo, isGoS] using (ih ('\n' :: acc) []).2.2.1
        · simpa [isGo, isGoS, hn, hd] using (ih (c :: '\n' :: acc) []).1
    · by_cases hd : c = '.'
      · subst hd
        simpa [isGo, isGoS] using (ih acc []).2.2.2.1
      · by_cases hn : c = '\n'
        · subst hn
          simpa [isGo, isGoS] using (ih ('.' :: acc) []).2.1
        · simpa [isGo, isGoS, hn, hd] using (ih (c :: '.' :: acc) []).1
    · by_cases hd : c = '.'
      · subst hd
        obtain ⟨q, qs, hq, hg⟩ := (ih [] ['.', '.', '.']).2.2.2.2.2
        simp [isGo, isGoS, hq, interleave, hg]
      · by_cases hn : c = '\n'
        · subst hn
          simpa [isGo, isGoS] using (ih ('.' :: '.' :: acc) []).2.1
        · simpa [isGo, isGoS, hn, hd] using (ih (c :: '.' :: '.' :: acc) []).1
    · by_cases hn : c = '\n'
      · subst hn
        obtain ⟨q, qs, hq, hg⟩ := (ih [] ('\n' :: sacc)).2.2.2.2.1
        exact ⟨q, qs, by simpa [isGoS] using hq, by simp [isGo, hg]⟩
      · by_cases hd : c = '.'
        · subst hd
          refine ⟨sacc.reverse, isGoS .dot1 [] rest, by simp [isGoS], ?_⟩
          simpa [isGo, isGoS] using congrArg (sacc.reverse ++ ·) (ih [] []).2.2.1
        · refine ⟨sacc.reverse, isGoS .norm [] rest, by simp [isGoS, hn, hd], ?_⟩
          simpa [isGo, isGoS, hn, hd] using congrArg (sacc.reverse ++ ·) (ih [c] []).1
    · by_cases hd : c = '.'
      · subst hd
        obtain ⟨q, qs, hq, hg⟩ := (ih [] ('.' :: sacc)).2.2.2.2.2
        exact ⟨q, qs, by simpa [isGoS] using hq, by simp [isGo, hg]⟩
      · by_cases hn : c = '\n'
        · subst hn
          refine ⟨sacc.reverse, isGoS .nl1 [] rest, by simp [isGoS], ?_⟩
          simpa [isGo, isGoS] using congrArg (sacc.reverse ++ ·) (ih [] []).2.1
        · refine ⟨sacc.reverse, isGoS .norm [] rest, by simp [isGoS, hn, hd], ?_⟩
          simpa [isGo, isGoS, hn, hd] using congrArg (sacc.reverse ++ ·) (ih [c] []).1

/-- A one-element pattern fails to match when the head differs. -/
theorem startsWithL_one_false {acc : List Char} {x : Char}
    (h : acc.head? ≠ some x) : startsWithL [x] acc = false := by
  cases acc with
  | nil => rfl
  | cons a t =>
      simp only [List.head?_cons, ne_eq, Option.some.injEq] at h
      simp [startsWithL, Ne.symm h]

/-- A matched pattern still matches after extending the text. -/
theorem startsWithL_append : ∀ (p X Z : List Char), startsWithL p X = true →
    startsWithL p (X ++ Z) = true := by
  intro p
  induction p with
  | nil => intro X Z _; rfl
  | cons a p ih =>
    intro X Z h
    cases X with
    | nil => exact absurd h (by simp [startsWithL])
    | cons x X =>
      rw [startsWithL] at h
      rw [List.cons_append, startsWithL]
      simp only [Bool.and_eq_true] at h ⊢
      exact ⟨h.1, ih X Z h.2⟩

/-- Appending one character preserves break-run freedom, provided the new
character completes neither a newline pair nor a dot triple. -/
theorem noBR_append : ∀ (A : List Char) (c : Char), noBreakRun A = true →
    (c = '\n' → A.getLast? ≠ some '\n') →
    (c = '.' → startsWithL ['.', '.'] A.reverse = false) →
    noBreakRun (A ++ [c]) = true := by
  intro A
  induction A with
  | nil => intro c _ _ _; simp [noBreakRun]
  | cons a A ih =>
    intro c h h1 h2
    cases A with
    | nil =>
      show noBreakRun [a, c] = true
      rw [noBreakRun]
      rw [if_neg, if_neg]
      · rfl
      · rintro ⟨-, -, hh⟩
        simp at hh
      · rintro ⟨ha, hc⟩
        exact h1 hc (by simp [ha])
    | cons b B =>
      rw [noBreakRun] at h
      by_cases hab : a = '\n' ∧ b = '\n'
      · rw [if_pos hab] at h; exact absurd h (by simp)
      · rw [if_neg hab] at h
        by_cases habB : a = '.' ∧ b = '.' ∧ B.head? = some '.'
        · rw [if_pos habB] at h; exact absurd h (by simp)
        · rw [if_neg habB] at h
          show noBreakRun (a :: ((b :: B) ++ [c])) = true
          rw [List.cons_append, noBreakRun]
          rw [if_neg hab, if_neg]
          · refine ih c h (fun hc => ?_) (fun hc => ?_)
            · intro hlast
              refine h1 hc ?_
              rwa [List.getLast?_cons_cons]
            · have h2' := h2 hc
              cases hB : startsWithL ['.', '.'] (b :: B).reverse with
              | false => rfl
              | true =>
                exfalso
                have hpre := startsWithL_append ['.', '.'] (b :: B).reverse [a] hB
                rw [show (a :: b :: B).reverse = (b :: B).reverse ++ [a] from
                  List.reverse_cons a (b :: B)] at h2'
                rw [h2'] at hpre
                exact absurd hpre (by simp)
          · rintro ⟨ha, hb, hBc⟩
            cases B with
            | nil =>
              have hc : c = '.' := by simpa using hBc
              have h2' := h2 hc
              rw [show (a :: b :: ([] : List Char)).reverse = [b, a] by simp] at h2'
              rw [show startsWithL ['.', '.'] [b, a] = true by
                simp [startsWithL, ha, hb]] at h2'
              exact absurd h2' (by simp)
            | cons b2 B2 =>
              exact habB ⟨ha, hb, by simpa using hBc⟩

/-- A two-element pattern fails to match when the head differs. -/
theorem startsWithL_two_false {acc : List Char} {x y : Char}
    (h : acc.head? ≠ some x) : startsWithL [x, y] acc = false := by
  cases acc with
  | nil => rfl
  | cons a t =>
      simp only [List.head?_cons, ne_eq, Option.some.injEq] at h
      simp [startsWithL, Ne.symm h]

/-- The dot-pair pattern fails on a single dot followed by a non-dot. -/
theorem startsWithL_dd_cons {acc : List Char} (h : acc.head? ≠ some '.') :
    startsWithL ['.', '.'] ('.' :: acc) = false := by
  rw [startsWithL, startsWithL_one_false h]
  simp

/-- Break-run freedom of a reversed accumulator extended by one character. -/
theorem noBR_cons {acc : List Char} {c : Char} (h : noBreakRun acc.reverse = true)
    (h1 : c = '\n' → acc.head? ≠ some '\n')
    (h2 : c = '.' → startsWithL ['.', '.'] acc = false) :
    noBreakRun ((c :: acc).reverse) = true := by
  rw [List.reverse_cons]
  refine noBR_append _ _ h (fun hc => ?_) (fun hc => ?_)
  · rw [List.getLast?_reverse]; exact h1 hc
  · rw [List.reverse_reverse]; exact h2 hc

/-- Every piece emitted by the tier-a scanner is free of separator runs.
The accumulator invariants per state: it is always break-run free; with a
pending newline it does not end in a newline; with pending dots it does not
end in a dot. -/
theorem isGo_pieces : ∀ (l : List Char),
    (∀ acc, noBreakRun acc.reverse = true → acc.head? ≠ some '\n' →
      acc.head? ≠ some '.' → ∀ p ∈ isGo .norm acc l, noBreakRun p = true) ∧
    (∀ acc, noBreakRun acc.reverse = true → acc.head? ≠ some '\n' →
      ∀ p ∈ isGo .nl1 acc l, noBreakRun p = true) ∧
    (∀ acc, noBreakRun acc.reverse = true → acc.head? ≠ some '.' →
      ∀ p ∈ isGo .dot1 acc l, noBreakRun p = true) ∧
    (∀ acc, noBreakRun acc.reverse = true → acc.head? ≠ some '.' →
      ∀ p ∈ isGo .dot2 acc l, noBreakRun p = true) ∧
    (∀ acc, ∀ p ∈ isGo .nlSep acc l, noBreakRun p = true) ∧
    (∀ acc, ∀ p ∈ isGo .dotSep acc l, noBreakRun p = true) := by
  intro l
  induction l with
  | nil =>
    refine ⟨?_, ?_, ?_, ?_, ?_, ?_⟩
    · intro acc h _ _ p hp
      simp only [isGo, List.mem_singleton] at hp
      exact hp ▸ h
    · intro acc h h1 p hp
      simp only [isGo, List.mem_singleton] at hp
      exact hp ▸ noBR_cons h (fun _ => h1) (fun hc => absurd hc (by decide))
    · intro acc h h2 p hp
      simp only [isGo, List.mem_singleton] at hp
      exact hp ▸ noBR_cons h (fun hc => absurd hc (by decide))
        (fun _ => startsWithL_two_false h2)
    · intro acc h h2 p hp
      simp only [isGo, List.mem_singleton] at hp
      refine hp ▸ noBR_cons (noBR_cons h (fun hc => absurd hc (by decide))
        (fun _ => startsWithL_two_false h2)) (fun hc => absurd hc (by decide))
        (fun _ => startsWithL_dd_cons h2)
    · intro acc p hp
      simp only [isGo, List.mem_singleton] at hp
      subst hp; rfl
    · intro acc p hp
      simp only [isGo, List.mem_singleton] at hp
      subst hp; rfl
  | cons c rest ih =>
    obtain ⟨ihn, ih1, ihd1, ihd2, ihns, ihds⟩ := ih
    refine ⟨?_, ?_, ?_, ?_, ?_, ?_⟩
    · intro acc h hn hd p hp
      rw [isGo] at hp
      by_cases hcn : c = '\n'
      · rw [if_pos hcn] at hp; exact ih1 acc h hn p hp
      · rw [if_neg hcn] at hp
        by_cases hcd : c = '.'
        · rw [if_pos hcd] at hp; exact ihd1 acc h hd p hp
        · rw [if_neg hcd] at hp
          refine ihn (c :: acc)
            (noBR_cons h (fun hc => absurd hc hcn) (fun hc => absurd hc hcd))
            (by simp [hcn]) (by simp [hcd]) p hp
    · intro acc h h1 p hp
      rw [isGo] at hp
      by_cases hcn : c = '\n'
      · rw [if_pos hcn] at hp
        rcases List.mem_cons.mp hp with hp | hp
        · exact hp ▸ h
        · exact ihns [] p hp
      · rw [if_neg hcn] at hp
        by_cases hcd : c = '.'
        · rw [if_pos hcd] at hp
          exact ihd1 ('\n' :: acc)
            (noBR_cons h (fun _ => h1) (fun hc => absurd hc (by decide)))
            (by simp) p hp
        · rw [if_neg hcd] at hp
          refine ihn (c :: '\n' :: acc)
            (noBR_cons (noBR_cons h (fun _ => h1) (fun hc => absurd hc (by decide)))
              (fun hc => absurd hc hcn) (fun hc => absurd hc hcd))
            (by simp [hcn]) (by simp [hcd]) p hp
    · intro acc h h2 p hp
      rw [isGo] at hp
      by_cases hcd : c = '.'
      · rw [if_pos hcd] at hp; exact ihd2 acc h h2 p hp
      · rw [if_neg hcd] at hp
        by_cases hcn : c = '\n'
        · rw [if_pos hcn] at hp
          exact ih1 ('.' :: acc)
            (noBR_cons h (fun hc => absurd hc (by decide))
              (fun _ => startsWithL_two_false h2))
            (by simp) p hp
        · rw [if_neg hcn] at hp
          refine ihn (c :: '.' :: acc)
            (noBR_cons (noBR_cons h (fun hc => absurd hc (by decide))
                (fun _ => startsWithL_two_false h2))
              (fun hc => absurd hc hcn) (fun hc => absurd hc hcd))
            (by simp [hcn]) (by simp [hcd]) p hp
    · intro acc h h2 p hp
      rw [isGo] at hp
      by_cases hcd : c = '.'
      · rw [if_pos hcd] at hp
        rcases List.mem_cons.mp hp with hp | hp
        · exact hp ▸ h
        · exact ihds [] p hp
      · rw [if_neg hcd] at hp
        by_cases hcn : c = '\n'
        · rw [if_pos hcn] at hp
          exact ih1 ('.' :: '.' :: acc)
            (noBR_cons (noBR_cons h (fun hc => absurd hc (by decide))
                (fun _ => startsWithL_two_false h2))
              (fun hc => absurd hc (by decide)) (fun _ => startsWithL_dd_cons h2))
            (by simp) p hp
        · rw [if_neg hcn] at hp
          refine ihn (c :: '.' :: '.' :: acc)
            (noBR_cons (noBR_cons (noBR_cons h (fun hc => absurd hc (by decide))
                  (fun _ => startsWithL_two_false h2))
                (fun hc => absurd hc (by decide)) (fun _ => startsWithL_dd_cons h2))
              (fun hc => absurd hc hcn) (fun hc => absurd hc hcd))
            (by simp [hcn]) (by simp [hcd]) p hp
    · intro acc p hp
      rw [isGo] at hp
      by_cases hcn : c = '\n'
      · rw [if_pos hcn] at hp; exact ihns [] p hp
      · rw [if_neg hcn] at hp
        by_cases hcd : c = '.'
        · rw [if_pos hcd] at hp
          exact ihd1 [] (by decide) (by decide) p hp
        · rw [if_neg hcd] at hp
          exact ihn [c] (by rfl) (by simp [hcn]) (by simp [hcd]) p hp
    · intro acc p hp
      rw [isGo] at hp
      by_cases hcd : c = '.'
      · rw [if_pos hcd] at hp; exact ihds [] p hp
      · rw [if_neg hcd] at hp
        by_cases hcn : c = '\n'
        · rw [if_pos hcn] at hp
          exact ih1 [] (by decide) (by decide) p hp
        · rw [if_neg hcn] at hp
          exact ihn [c] (by rfl) (by simp [hcn]) (by simp [hcd]) p hp

/-- A reversed all-newline accumulator of length at least 2 is a valid
separator. -/
theorem sepShape_nl {sacc : List Char} (hall : ∀ c ∈ sacc, c = '\n')
    (hlen : 2 ≤ sacc.length) : sepShape sacc.reverse = true := by
  simp only [sepShape, Bool.or_eq_true, Bool.and_eq_true, List.all_eq_true,
    decide_eq_true_eq, List.length_reverse]
  exact Or.inl ⟨by simpa using hlen, fun c hc => hall c (List.mem_reverse.mp hc)⟩

/-- A reversed all-dot accumulator of length at least 3 is a valid
separator. -/
theorem sepShape_dot {sacc : List Char} (hall : ∀ c ∈ sacc, c = '.')
    (hlen : 3 ≤ sacc.length) : sepShape sacc.reverse = true := by
  simp only [sepShape, Bool.or_eq_true, Bool.and_eq_true, List.all_eq_true,
    decide_eq_true_eq, List.length_reverse]
  exact Or.inr ⟨by simpa using hlen, fun c hc => hall c (List.mem_reverse.mp hc)⟩

/-- Every separator emitted by the tier-a scanner is a newline run of length
at least 2 or a dot run of length at least 3. -/
theorem isGoS_shape : ∀ (l : List Char),
    (∀ sacc, ∀ q ∈ isGoS .norm sacc l, sepShape q = true) ∧
    (∀ sacc, ∀ q ∈ isGoS .nl1 sacc l, sepShape q = true) ∧
    (∀ sacc, ∀ q ∈ isGoS .dot1 sacc l, sepShape q = true) ∧
    (∀ sacc, ∀ q ∈ isGoS .dot2 sacc l, sepShape q = true) ∧
    (∀ sacc, (∀ c ∈ sacc, c = '\n') → 2 ≤ sacc.length →
      ∀ q ∈ isGoS .nlSep sacc l, sepShape q = true) ∧
    (∀ sacc, (∀ c ∈ sacc, c = '.') → 3 ≤ sacc.length →
      ∀ q ∈ isGoS .dotSep sacc l, sepShape q = true) := by
  intro l
  induction l with
  | nil =>
    refine ⟨?_, ?_, ?_, ?_, ?_, ?_⟩ <;> intro sacc
    · intro q hq; simp [isGoS] at hq
    · intro q hq; simp [isGoS] at hq
    · intro q hq; simp [isGoS] at hq
    · intro q hq; simp [isGoS] at hq
    · intro hall hlen q hq
      simp only [isGoS, List.mem_singleton] at hq
      exact hq ▸ sepShape_nl hall hlen
    · intro hall hlen q hq
      simp only [isGoS, List.mem_singleton] at hq
      exact hq ▸ sepShape_dot hall hlen
  | cons c rest ih =>
    obtain ⟨ihn, ih1, ihd1, ihd2, ihns, ihds⟩ := ih
    refine ⟨?_, ?_, ?_, ?_, ?_, ?_⟩
    · intro sacc q hq
      rw [isGoS] at hq
      by_cases hcn : c = '\n'
      · rw [if_pos hcn] at hq; exact ih1 [] q hq
      · rw [if_neg hcn] at hq
        by_cases hcd : c = '.'
        · rw [if_pos hcd] at hq; exact ihd1 [] q hq
        · rw [if_neg hcd] at hq; exact ihn [] q hq
    · intro sacc q hq
      rw [isGoS] at hq
      by_cases hcn : c = '\n'
      · rw [if_pos hcn] at hq
        exact ihns ['\n', '\n'] (by decide) (by decide) q hq
      · rw [if_neg hcn] at hq
        by_cases hcd : c = '.'
        · rw [if_pos hcd] at hq; exact ihd1 [] q hq
        · rw [if_neg hcd] at hq; exact ihn [] q hq
    · intro sacc q hq
      rw [isGoS] at hq
      by_cases hcd : c = '.'
      · rw [if_pos hcd] at hq; exact ihd2 [] q hq
      · rw [if_neg hcd] at hq
        by_cases hcn : c = '\n'
        · rw [if_pos hcn] at hq; exact ih1 [] q hq
        · rw [if_neg hcn] at hq; exact ihn [] q hq
    · intro sacc q hq
      rw [isGoS] at hq
      by_cases hcd : c = '.'
      · rw [if_pos hcd] at hq
        exact ihds ['.', '.', '.'] (by decide) (by decide) q hq
      · rw [if_neg hcd] at hq
        by_cases hcn : c = '\n'
        · rw [if_pos hcn] at hq; exact ih1 [] q hq
        · rw [if_neg hcn] at hq; exact ihn [] q hq
    · intro sacc hall hlen q hq
      rw [isGoS] at hq
      by_cases hcn : c = '\n'
      · rw [if_pos hcn] at hq
        refine ihns ('\n' :: sacc) (fun x hx => ?_) (by simp; omega) q hq
        rcases List.mem_cons.mp hx with hx | hx
        · exact hx
        · exact hall x hx
      · rw [if_neg hcn] at hq
        by_cases hcd : c = '.'
        · rw [if_pos hcd] at hq
          rcases List.mem_cons.mp hq with hq | hq
          · exact hq ▸ sepShape_nl hall hlen
          · exact ihd1 [] q hq
        · rw [if_neg hcd] at hq
          rcases List.mem_cons.mp hq with hq | hq
          · exact hq ▸ sepShape_nl hall hlen
          · exact ihn [] q hq
    · intro sacc hall hlen q hq
      rw [isGoS] at hq
      by_cases hcd : c = '.'
      · rw [if_pos hcd] at hq
        refine ihds ('.' :: sacc) (fun x hx => ?_) (by simp; omega) q hq
        rcases List.mem_cons.mp hx with hx | hx
        · exact hx
        · exact hall x hx
      · rw [if_neg hcd] at hq
        by_cases hcn : c = '\n'
        · rw [if_pos hcn] at hq
          rcases List.mem_cons.mp hq with hq | hq
          · exact hq ▸ sepShape_dot hall hlen
          · exact ih1 [] q hq
        · rw [if_neg hcn] at hq
          rcases List.mem_cons.mp hq with hq | hq
          · exact hq ▸ sepShape_dot hall hlen
          · exact ihn [] q hq

/-- C6: whenever the tier-a split of a cleaned text yields more than one
piece, the paragraph sequence is exactly the trimmed pieces longer than 15
characters in their original order; moreover the split is genuinely a split
on separator runs: no piece contains a run of 2+ newlines or 3+ dots, every
separator is such a run, and pieces interleaved with separators reassemble
the text. -/
theorem c6_tier_a_split (ct : String) (h : 1 < (initialSplit ct.data).length) :
    segmentInitial ct.data =
      ((initialSplit ct.data).map jsTrim).filter (fun p => 15 < p.length) ∧
    (∀ p ∈ initialSplit ct.data, noBreakRun p = true) ∧
    (∀ q ∈ initialSplitSeps ct.data, sepShape q = true) ∧
    interleave (initialSplit ct.data) (initialSplitSeps ct.data) = ct.data := by
  refine ⟨?_, ?_, ?_, ?_⟩
  · rw [segmentInitial, if_neg (by omega)]
  · exact (isGo_pieces ct.data).1 [] rfl (by simp) (by simp)
  · exact (isGoS_shape ct.data).1 []
  · exact (isGo_glue ct.data [] []).1

/-- Witness for C6 on a concrete two-paragraph text. -/
theorem c6_witness :
    1 < (initialSplit "First paragraph is long enough.\n\nSecond one is long enough.".data).length ∧
    (segmentInitial "First paragraph is long enough.\n\nSecond one is long enough.".data =
      ((initialSplit "First paragraph is long enough.\n\nSecond one is long enough.".data).map
        jsTrim).filter (fun p => 15 < p.length) ∧
    (∀ p ∈ initialSplit "First paragraph is long enough.\n\nSecond one is long enough.".data,
      noBreakRun p = true) ∧
    (∀ q ∈ initialSplitSeps "First paragraph is long enough.\n\nSecond one is long enough.".data,
      sepShape q = true) ∧
    interleave
      (initialSplit "First paragraph is long enough.\n\nSecond one is long enough.".data)
      (initialSplitSeps "First paragraph is long enough.\n\nSecond one is long enough.".data) =
      "First paragraph is long enough.\n\nSecond one is long enough.".data) :=
  ⟨by decide, c6_tier_a_split "First paragraph is long enough.\n\nSecond one is long enough."
    (by decide)⟩

/-! ## Visible-text accounting of the sentence fallback (claim C1) -/

/-- Concatenation distributes over joinL. -/
theorem joinL_append {α : Type} : ∀ (a b : List (List α)),
    joinL (a ++ b) = joinL a ++ joinL b := by
  intro a b
  induction a with
  | nil => rfl
  | cons x a ih => simp [joinL, ih]

/-- Trimming does not change the whitespace erasure. -/
theorem stripWs_jsTrim (l : List Char) : stripWs (jsTrim l) = stripWs l := by
  have hdrop : ∀ m : List Char, stripWs (m.dropWhile jsWs) = stripWs m := by
    intro m
    induction m with
    | nil => rfl
    | cons c t ih =>
      by_cases hc : jsWs c = true
      · rw [List.dropWhile_cons_of_pos hc, ih]
        simp [stripWs, List.filter_cons, hc]
      · rw [List.dropWhile_cons_of_neg (by simpa using hc)]
  have hrev : ∀ m : List Char, stripWs m.reverse = (stripWs m).reverse := by
    intro m; simp [stripWs, List.filter_reverse]
  calc stripWs (trimR (trimL l))
      = stripWs ((trimL (trimL l).reverse).reverse) := rfl
    _ = (stripWs (trimL (trimL l).reverse)).reverse := hrev _
    _ = (stripWs (trimL l).reverse).reverse := by rw [trimL, hdrop]
    _ = (stripWs (trimL l)).reverse.reverse := by rw [hrev]
    _ = stripWs (trimL l) := by rw [List.reverse_reverse]
    _ = stripWs l := by rw [trimL, hdrop]

/-- The whitespace erasures of sentence pieces, rejoined with the periods
the `\.\s+` delimiters removed. -/
def dotJoin : List (List Char) → List Char
  | [] => []
  | [p] => stripWs p
  | p :: rest => stripWs p ++ '.' :: dotJoin rest

/-- dotJoin on a cons with a nonempty tail. -/
theorem dotJoin_cons {p : List Char} {ps : List (List Char)} (h : ps ≠ []) :
    dotJoin (p :: ps) = stripWs p ++ '.' :: dotJoin ps := by
  cases ps with
  | nil => exact absurd rfl h
  | cons q qs => rfl

/-- The sentence split scanner never returns an empty piece list. -/
theorem sdGo_ne_nil : ∀ (l : List Char) (skip : Bool) (acc : List Char),
    sdGo skip acc l ≠ [] := by
  intro l
  induction l with
  | nil => intro skip acc; simp [sdGo]
  | cons c rest ih =>
    intro skip acc
    rw [sdGo.eq_def]
    dsimp only
    by_cases hc : c = '.'
    · rw [if_pos hc]
      cases rest with
      | nil => simp
      | cons d rest2 =>
        dsimp only
        by_cases hd : jsWs d = true
        · rw [if_pos hd]; simp
        · rw [if_neg hd]; exact ih false ('.' :: acc)
    · rw [if_neg hc]
      by_cases hs : (skip && jsWs c) = true
      · rw [if_pos hs]; exact ih skip acc
      · rw [if_neg hs]; exact ih false (c :: acc)

/-- Whitespace erasure distributes over concatenation. -/
theorem stripWs_append (a b : List Char) : stripWs (a ++ b) = stripWs a ++ stripWs b :=
  List.filter_append ..

/-- Dots are not whitespace. -/
theorem jsWs_dot : jsWs '.' = false := by decide

/-- Whitespace erasure of the pieces of the sentence split, rejoined with
periods, is the whitespace erasure of the input: the split only discards a
period (restored by dotJoin) and whitespace. -/
theorem sdGo_dotJoin : ∀ (l : List Char) (skip : Bool) (acc : List Char),
    dotJoin (sdGo skip acc l) = stripWs acc.reverse ++ stripWs l := by
  intro l
  induction l with
  | nil => intro skip acc; simp [sdGo, dotJoin, stripWs]
  | cons c rest ih =>
    intro skip acc
    rw [sdGo.eq_def]
    dsimp only
    by_cases hc : c = '.'
    · rw [if_pos hc]
      subst hc
      cases rest with
      | nil =>
        simp [dotJoin, stripWs, List.reverse_cons, List.filter_append,
          List.filter_cons]
      | cons d rest2 =>
        dsimp only
        by_cases hd : jsWs d = true
        · rw [if_pos hd]
          rw [dotJoin_cons (sdGo_ne_nil _ _ _), ih true []]
          simp [stripWs, List.filter_cons, jsWs_dot]
        · rw [if_neg hd]
          rw [ih false ('.' :: acc)]
          simp [stripWs, List.reverse_cons, List.filter_append, List.filter_cons,
            jsWs_dot]
    · rw [if_neg hc]
      by_cases hs : (skip && jsWs c) = true
      · rw [if_pos hs]
        rw [ih skip acc]
        have hw : jsWs c = true := (Bool.and_eq_true _ _ |>.mp hs).2
        simp [stripWs, List.filter_cons, hw]
      · rw [if_neg hs]
        rw [ih false (c :: acc)]
        by_cases hw : jsWs c = true
        · simp [stripWs, List.reverse_cons, List.filter_append, List.filter_cons, hw]
        · simp [stripWs, List.reverse_cons, List.filter_append, List.filter_cons, hw]

/-- The dot-rejoined erasure of the sentence pieces equals the erasure of
the text. -/
theorem splitDot_dotJoin (l : List Char) : dotJoin (splitDot l) = stripWs l := by
  simpa using sdGo_dotJoin l false []

/-- When no sentence trims to nothing, preparation (trim plus restored
period) keeps the dot-rejoined erasure. -/
theorem prepare_stripWs : ∀ (ps : List (List Char)),
    (∀ p ∈ ps, jsTrim p ≠ []) → stripWs (joinL (prepare ps)) = dotJoin ps := by
  intro ps
  induction ps with
  | nil => intro _; rfl
  | cons p rest ih =>
    intro h
    rw [prepare.eq_def]
    dsimp only
    cases rest with
    | nil => simp [joinL, dotJoin, stripWs_append, stripWs_jsTrim]
    | cons q rest2 =>
      dsimp only
      rw [if_neg (h p (List.mem_cons_self _ _))]
      rw [dotJoin_cons (by simp), joinL]
      rw [stripWs_append, stripWs_append]
      rw [ih (fun x hx => h x (List.mem_cons_of_mem _ hx)), stripWs_jsTrim]
      simp [stripWs, jsWs_dot]

/-- Spaces are whitespace. -/
theorem jsWs_space : jsWs ' ' = true := by decide

/-- Erasure of the empty list. -/
theorem stripWs_nil : stripWs [] = [] := rfl

/-- The glued sentence, without the accumulator, erases like the sentence. -/
theorem stripWs_glue2 (cur s : List Char) :
    stripWs (if cur = [] then s else ' ' :: s) = stripWs s := by
  by_cases h : cur = [] <;> simp [h, stripWs, List.filter_cons, jsWs_space]

/-- The space-glued concatenation of the sentence loops erases to the two
erasures side by side. -/
theorem stripWs_glue (cur s : List Char) :
    stripWs (cur ++ (if cur = [] then s else ' ' :: s)) =
      stripWs cur ++ stripWs s := by
  by_cases h : cur = []
  · simp [h, stripWs]
  · simp [h, stripWs_append, stripWs, List.filter_cons, jsWs_space]

/-- The reconstruction loop neither drops nor invents non-whitespace text:
the erasure of its joined output is the erasure of pushed paragraphs,
accumulator and remaining (prepared) sentences in order. -/
theorem recGo_stripWs : ∀ (items : List (List Char)) (cur : List Char)
    (paras : List (List Char)),
    stripWs (joinL (recGo items cur paras)) =
      stripWs (joinL paras) ++ stripWs cur ++ stripWs (joinL items) := by
  intro items
  induction items with
  | nil =>
    intro cur paras
    rw [recGo]
    by_cases h : jsTrim cur = []
    · rw [if_pos h]
      have hc : stripWs cur = [] := by rw [← stripWs_jsTrim, h]; rfl
      simp [joinL, hc, stripWs_nil]
    · rw [if_neg h]
      rw [joinL_append, stripWs_append]
      simp [joinL, stripWs_jsTrim, stripWs_nil]
  | cons s rest ih =>
    intro cur paras
    rw [recGo]
    by_cases hs : s = []
    · rw [if_pos hs]
      rw [ih cur paras]
      subst hs
      simp [joinL]
    · rw [if_neg hs]
      dsimp only
      by_cases hkw : shouldStartNewParagraph s cur = true
      · rw [if_pos hkw]
        dsimp only
        by_cases hf : 3 ≤ splitDotLen s
        · rw [if_pos hf, ih]
          by_cases ht : jsTrim cur = []
          · rw [if_pos ht]
            have hc : stripWs cur = [] := by rw [← stripWs_jsTrim, ht]; rfl
            simp [joinL, joinL_append, stripWs_append, stripWs_jsTrim, hc,
              stripWs_nil]
          · rw [if_neg ht]
            simp [joinL, joinL_append, stripWs_append, stripWs_jsTrim, stripWs_nil]
        · rw [if_neg hf, ih]
          by_cases ht : jsTrim cur = []
          · rw [if_pos ht]
            have hc : stripWs cur = [] := by rw [← stripWs_jsTrim, ht]; rfl
            simp [joinL, stripWs_append, hc]
          · rw [if_neg ht]
            simp [joinL, joinL_append, stripWs_append, stripWs_jsTrim]
      · rw [if_neg hkw]
        dsimp only
        by_cases hf : 3 ≤ splitDotLen (cur ++ if cur = [] then s else ' ' :: s)
        · rw [if_pos hf, ih]
          simp [joinL, joinL_append, stripWs_append, stripWs_jsTrim, stripWs_glue,
            stripWs_glue2, stripWs_nil]
        · rw [if_neg hf, ih]
          simp [joinL, stripWs_append, stripWs_glue, stripWs_glue2, stripWs_nil]

/-- C1 (amended): visible-text preservation does not hold in general (see
the counterexample: tier-a segmentation drops short pieces; separator runs
and the periods of empty sentences are also discarded).  It does hold on
the sentence-reconstruction path: when the tier-a split of the cleaned text
yields a single piece and no `\.\s+`-split sentence trims to nothing, the
concatenated paragraphs produced by segmentation carry exactly the cleaned
text's non-whitespace characters, in order. -/
theorem c1_amended_no_drop (s : String)
    (h1 : (initialSplit (cleanTextL s.data)).length = 1)
    (h2 : ∀ p ∈ splitDot (cleanTextL s.data), jsTrim p ≠ []) :
    stripWs (joinL (segmentInitial (cleanTextL s.data))) =
      stripWs (cleanTextL s.data) := by
  rw [segmentInitial, if_pos h1, reconstruct, recGo_stripWs,
    prepare_stripWs _ h2, splitDot_dotJoin]
  simp [joinL, stripWs_nil]

/-- Witness for the amended C1 on a concrete three-sentence text. -/
theorem c1_witness :
    (initialSplit (cleanTextL "Alpha beta. Gamma delta. Epsilon zeta.".data)).length = 1 ∧
    (∀ p ∈ splitDot (cleanTextL "Alpha beta. Gamma delta. Epsilon zeta.".data),
      jsTrim p ≠ []) ∧
    stripWs (joinL (segmentInitial
        (cleanTextL "Alpha beta. Gamma delta. Epsilon zeta.".data))) =
      stripWs (cleanTextL "Alpha beta. Gamma delta. Epsilon zeta.".data) :=
  ⟨by decide, by decide,
    c1_amended_no_drop "Alpha beta. Gamma delta. Epsilon zeta." (by decide) (by decide)⟩

/-! ## Fragment length bound (claim C5) -/

/-- joinL is List.join. -/
theorem joinL_eq_join {α : Type} : ∀ (L : List (List α)), joinL L = L.flatten := by
  intro L
  induction L with
  | nil => rfl
  | cons x L ih => simp [joinL, ih]

/-- Trimming never lengthens a list. -/
theorem jsTrim_length_le (l : List Char) : (jsTrim l).length ≤ l.length := by
  have h1 : ∀ m : List Char, (m.dropWhile jsWs).length ≤ m.length := by
    intro m
    induction m with
    | nil => simp
    | cons c t ih =>
      by_cases hc : jsWs c = true
      · rw [List.dropWhile_cons_of_pos hc]; exact le_trans ih (by simp)
      · rw [List.dropWhile_cons_of_neg (by simpa using hc)]
  calc (trimR (trimL l)).length
      ≤ (trimL l).length := by
        rw [trimR, trimL]
        simpa using h1 (trimL l).reverse
    _ ≤ l.length := h1 l

/-- Prepared sentences are at most one character (the restored period)
longer than their pieces. -/
theorem prepare_length : ∀ (ps : List (List Char)),
    (∀ p ∈ ps, p.length ≤ 350) → ∀ i ∈ prepare ps, i.length ≤ 351 := by
  intro ps
  induction ps with
  | nil => intro _ i hi; simp [prepare] at hi
  | cons p rest ih =>
    intro h i hi
    rw [prepare.eq_def] at hi
    dsimp only at hi
    cases rest with
    | nil =>
      simp only [List.mem_singleton] at hi
      subst hi
      exact le_trans (jsTrim_length_le p) (le_trans (h p (by simp)) (by omega))
    | cons q rest2 =>
      dsimp only at hi
      rcases List.mem_cons.mp hi with hi | hi
      · subst hi
        split
        · simp
        · have := jsTrim_length_le p
          have := h p (by simp)
          simp only [List.length_append, List.length_singleton]
          omega
      · exact ih (fun x hx => h x (List.mem_cons_of_mem _ hx)) i hi

/-- The chunking loop of breakLongParagraph keeps every chunk within 351
characters as long as every sentence fits in 351: the accumulator only
grows past a flush up to 350, or restarts from a single sentence. -/
theorem blpGo_bound : ∀ (items : List (List Char)) (cur : List Char)
    (chunks : List (List Char)),
    (∀ i ∈ items, i.length ≤ 351) → cur.length ≤ 351 →
    (∀ c ∈ chunks, c.length ≤ 351) →
    ∀ c ∈ blpGo items cur chunks, c.length ≤ 351 := by
  intro items
  induction items with
  | nil =>
    intro cur chunks _ hcur hchunks c hc
    rw [blpGo] at hc
    split at hc
    · exact hchunks c hc
    · rcases List.mem_append.mp hc with hc | hc
      · exact hchunks c hc
      · simp only [List.mem_singleton] at hc
        exact hc ▸ le_trans (jsTrim_length_le cur) hcur
  | cons s rest ih =>
    intro cur chunks hitems hcur hchunks c hc
    have hs : s.length ≤ 351 := hitems s (by simp)
    have hrest : ∀ i ∈ rest, i.length ≤ 351 :=
      fun i hi => hitems i (List.mem_cons_of_mem _ hi)
    rw [blpGo] at hc
    split at hc
    · exact ih cur chunks hrest hcur hchunks c hc
    · split at hc
      · refine ih s _ hrest hs (fun x hx => ?_) c hc
        rcases List.mem_append.mp hx with hx | hx
        · exact hchunks x hx
        · simp only [List.mem_singleton] at hx
          exact hx ▸ le_trans (jsTrim_length_le cur) hcur
      · rename_i hflush
        refine ih _ chunks hrest ?_ hchunks c hc
        by_cases hcur0 : cur = []
        · simpa [hcur0] using hs
        · have hlen : ¬350 < (cur ++ ' ' :: s).length := by
            by_contra hgt
            exact hflush ⟨hcur0, Or.inl (by omega)⟩
          simp only [hcur0, if_false, List.length_append, List.length_cons] at hlen ⊢
          omega

/-- C5 (amended): the claim fails on the no-paragraph fallback (see the
counterexample), which wraps the whole cleaned text and bypasses the
splitter.  Whenever that fallback is not taken, and every `\.\s+`-split
sentence of every paragraph is at most 350 characters, no emitted
pre-highlighting fragment exceeds 700 characters: short paragraphs pass
through whole, and chunks of long ones stay within 351 characters. -/
theorem c5_fragment_bound (s : String)
    (hnf : ¬(assembleFormatted (segmentParas (cleanTextL s.data)) = [] ∨
      (segmentParas (cleanTextL s.data)).length = 0))
    (hb : ∀ p ∈ segmentParas (cleanTextL s.data), ∀ st ∈ splitDot p,
      st.length ≤ 350) :
    ∀ f ∈ preFragments s.data, f.length ≤ 700 := by
  intro f hf
  rw [preFragments] at hf
  by_cases hsd : s.data = []
  · rw [if_pos hsd] at hf
    simp at hf
  · rw [if_neg hsd] at hf
    rw [if_neg hnf] at hf
    rw [joinL_eq_join] at hf
    rw [List.mem_flatten] at hf
    obtain ⟨fl, hfl, hffl⟩ := hf
    rw [List.mem_map] at hfl
    obtain ⟨p, hp, hpf⟩ := hfl
    by_cases h700 : 700 < p.length
    · rw [← hpf, if_pos h700] at hffl
      have := blpGo_bound (prepare (splitDot p)) [] []
        (prepare_length _ (hb p hp)) (by simp) (by simp) f hffl
      omega
    · rw [← hpf, if_neg h700] at hffl
      simp only [List.mem_singleton] at hffl
      subst hffl
      omega

/-- Witness for the amended C5 on a concrete two-paragraph text. -/
theorem c5_witness :
    (¬(assembleFormatted (segmentParas
        (cleanTextL "First paragraph is long enough.\n\nSecond one is long enough.".data)) = [] ∨
      (segmentParas
        (cleanTextL "First paragraph is long enough.\n\nSecond one is long enough.".data)).length = 0)) ∧
    (∀ p ∈ segmentParas
        (cleanTextL "First paragraph is long enough.\n\nSecond one is long enough.".data),
      ∀ st ∈ splitDot p, st.length ≤ 350) ∧
    ∀ f ∈ preFragments "First paragraph is long enough.\n\nSecond one is long enough.".data,
      f.length ≤ 700 :=
  ⟨by decide, by decide,
    c5_fragment_bound "First paragraph is long enough.\n\nSecond one is long enough."
      (by decide) (by decide)⟩

/-! ## Trim fixed points -/

/-- dropWhile never lengthens. -/
theorem dropWhile_len_le (p : Char → Bool) (l : List Char) :
    (l.dropWhile p).length ≤ l.length :=
  (List.dropWhile_sublist _).length_le

/-- trimR never lengthens. -/
theorem trimR_length_le (l : List Char) : (trimR l).length ≤ l.length := by
  rw [trimR, trimL]
  simpa using dropWhile_len_le jsWs l.reverse

/-- trimL is the identity when the head is not whitespace. -/
theorem trimL_fix {l : List Char} (h : ∀ c, l.head? = some c → jsWs c = false) :
    trimL l = l := by
  cases l with
  | nil => rfl
  | cons c t =>
    rw [trimL, List.dropWhile_cons_of_neg (by simp [h c rfl])]

/-- trimR is the identity when the last character is not whitespace. -/
theorem trimR_fix {l : List Char} (h : ∀ c, l.getLast? = some c → jsWs c = false) :
    trimR l = l := by
  rw [trimR, trimL_fix, List.reverse_reverse]
  intro c hc
  rw [List.head?_reverse] at hc
  exact h c hc

/-- A list with non-whitespace head and last characters is its own trim. -/
theorem jsTrim_fix {l : List Char}
    (h1 : ∀ c, l.head? = some c → jsWs c = false)
    (h2 : ∀ c, l.getLast? = some c → jsWs c = false) : jsTrim l = l := by
  rw [jsTrim, trimL_fix h1, trimR_fix h2]

/-- A nonempty trim-fixed list has a non-whitespace head. -/
theorem head_not_ws_of_trim_fix {l : List Char} (hfix : jsTrim l = l) (c : Char)
    (hc : l.head? = some c) : jsWs c = false := by
  by_contra h
  have hw : jsWs c = true := by simpa using h
  cases l with
  | nil => simp at hc
  | cons a t =>
    simp only [List.head?_cons, Option.some.injEq] at hc
    rw [← hc] at hw
    have hlt : (jsTrim (a :: t)).length < (a :: t).length := by
      have h1 : trimL (a :: t) = t.dropWhile jsWs := by
        rw [trimL, List.dropWhile_cons_of_pos hw]
      calc (jsTrim (a :: t)).length
          ≤ (trimL (a :: t)).length := trimR_length_le _
        _ = (t.dropWhile jsWs).length := by rw [h1]
        _ ≤ t.length := dropWhile_len_le _ _
        _ < (a :: t).length := by simp
    rw [hfix] at hlt
    omega

/-- A nonempty trim-fixed list has a non-whitespace last character. -/
theorem last_not_ws_of_trim_fix {l : List Char} (hfix : jsTrim l = l) (c : Char)
    (hc : l.getLast? = some c) : jsWs c = false := by
  by_contra h
  have hw : jsWs c = true := by simpa using h
  by_cases htl : (trimL l).length < l.length
  · have hlt : (jsTrim l).length < l.length := lt_of_le_of_lt (trimR_length_le _) htl
    rw [hfix] at hlt
    omega
  · have hlen : (trimL l).length = l.length :=
      le_antisymm (by rw [trimL]; exact dropWhile_len_le _ _) (le_of_not_lt htl)
    have heq : trimL l = l := by
      have hsplit : l.takeWhile jsWs ++ l.dropWhile jsWs = l :=
        List.takeWhile_append_dropWhile ..
      have htw : l.takeWhile jsWs = [] := by
        have hlen2 := congrArg List.length hsplit
        simp only [List.length_append] at hlen2
        rw [trimL] at hlen
        exact List.length_eq_zero.mp (by omega)
      rw [trimL]
      conv_rhs => rw [← hsplit]
      rw [htw, List.nil_append]
    have hrev : ∃ t, l.reverse = c :: t := by
      rw [← List.head?_reverse] at hc
      cases hr : l.reverse with
      | nil => rw [hr] at hc; simp at hc
      | cons x t =>
        rw [hr] at hc
        simp only [List.head?_cons, Option.some.injEq] at hc
        exact ⟨t, by rw [hc]⟩
    obtain ⟨t, ht⟩ := hrev
    have hlt : (jsTrim l).length < l.length := by
      calc (jsTrim l).length = (trimR (trimL l)).length := rfl
        _ = (trimR l).length := by rw [heq]
        _ = (l.reverse.dropWhile jsWs).length := by rw [trimR, trimL]; simp
        _ = ((c :: t).dropWhile jsWs).length := by rw [ht]
        _ = (t.dropWhile jsWs).length := by rw [List.dropWhile_cons_of_pos hw]
        _ ≤ t.length := dropWhile_len_le _ _
        _ < l.length := by
            have hl2 := congrArg List.length ht
            simp at hl2
            omega
    rw [hfix] at hlt
    omega

/-- Gluing two nonempty trim-fixed strings with a space is trim-fixed. -/
theorem jsTrim_fix_append {a b : List Char} (ha : jsTrim a = a) (hna : a ≠ [])
    (hb : jsTrim b = b) (hnb : b ≠ []) :
    jsTrim (a ++ ' ' :: b) = a ++ ' ' :: b := by
  apply jsTrim_fix
  · intro c hc
    have hh : (a ++ ' ' :: b).head? = a.head? := by
      cases a with
      | nil => exact absurd rfl hna
      | cons x t => simp
    rw [hh] at hc
    exact head_not_ws_of_trim_fix ha c hc
  · intro c hc
    have hh : (a ++ ' ' :: b).getLast? = b.getLast? := by
      rw [List.getLast?_append_of_ne_nil a (by simp : (' ' :: b) ≠ [])]
      cases b with
      | nil => exact absurd rfl hnb
      | cons x t =>
        rw [show (' ' :: x :: t) = [' '] ++ x :: t from rfl]
        rw [List.getLast?_append_of_ne_nil [' '] (by simp : (x :: t) ≠ [])]
    rw [hh] at hc
    exact last_not_ws_of_trim_fix hb c hc

/-! ## Sentence-internal delimiter freedom and sentence counting -/

/-- No occurrence of the sentence delimiter `\.\s+`: no dot directly
followed by whitespace. -/
def noDotWs : List Char → Bool
  | [] => true
  | [_] => true
  | a :: b :: rest => if a = '.' ∧ jsWs b = true then false else noDotWs (b :: rest)

/-- Delimiter freedom passes to the tail. -/
theorem noDotWs_tail {x : Char} {xs : List Char} (h : noDotWs (x :: xs) = true) :
    noDotWs xs = true := by
  cases xs with
  | nil => rfl
  | cons y ys =>
    rw [noDotWs] at h
    split at h
    · exact absurd h (by simp)
    · exact h

/-- Appending one character preserves delimiter freedom unless it is a
whitespace character placed after a dot. -/
theorem noDotWs_append : ∀ (A : List Char) (c : Char), noDotWs A = true →
    (jsWs c = true → A.getLast? ≠ some '.') → noDotWs (A ++ [c]) = true := by
  intro A
  induction A with
  | nil => intro c _ _; rfl
  | cons a A ih =>
    intro c h h1
    cases A with
    | nil =>
      show noDotWs [a, c] = true
      rw [noDotWs]
      rw [if_neg]
      · rfl
      · rintro ⟨ha, hc⟩
        exact h1 hc (by simp [ha])
    | cons b B =>
      rw [noDotWs] at h
      by_cases hab : a = '.' ∧ jsWs b = true
      · rw [if_pos hab] at h; exact absurd h (by simp)
      · rw [if_neg hab] at h
        show noDotWs (a :: ((b :: B) ++ [c])) = true
        rw [List.cons_append, noDotWs, if_neg hab]
        refine ih c h (fun hc => ?_)
        intro hlast
        exact h1 hc (by rwa [List.getLast?_cons_cons])

/-- Delimiter freedom restricts to a left factor. -/
theorem noDotWs_of_append_left : ∀ (a b : List Char),
    noDotWs (a ++ b) = true → noDotWs a = true := by
  intro a
  induction a with
  | nil => intro b _; rfl
  | cons x a ih =>
    intro b h
    cases a with
    | nil => rfl
    | cons y a2 =>
      rw [show x :: (y :: a2) ++ b = x :: y :: (a2 ++ b) from rfl, noDotWs] at h
      rw [noDotWs]
      split at h
      · exact absurd h (by simp)
      · rename_i hxy
        rw [if_neg hxy]
        exact ih b h

/-- Delimiter freedom is preserved by dropWhile. -/
theorem noDotWs_dropWhile (p : Char → Bool) : ∀ (l : List Char),
    noDotWs l = true → noDotWs (l.dropWhile p) = true := by
  intro l
  induction l with
  | nil => intro _; rfl
  | cons c t ih =>
    intro h
    by_cases hc : p c = true
    · rw [List.dropWhile_cons_of_pos hc]
      exact ih (noDotWs_tail h)
    · rwa [List.dropWhile_cons_of_neg (by simpa using hc)]

/-- Delimiter freedom is preserved by trimming. -/
theorem noDotWs_jsTrim {l : List Char} (h : noDotWs l = true) :
    noDotWs (jsTrim l) = true := by
  have h1 : noDotWs (trimL l) = true := noDotWs_dropWhile jsWs l h
  have hdec : ∃ w, trimL l = trimR (trimL l) ++ w := by
    refine ⟨((trimL l).reverse.takeWhile jsWs).reverse, ?_⟩
    conv_lhs => rw [← List.reverse_reverse (trimL l),
      show (trimL l).reverse = (trimL l).reverse.takeWhile jsWs ++
        (trimL l).reverse.dropWhile jsWs from (List.takeWhile_append_dropWhile ..).symm]
    rw [List.reverse_append, trimR, trimL]
    rfl
  obtain ⟨w, hw⟩ := hdec
  rw [jsTrim]
  exact noDotWs_of_append_left _ w (hw ▸ h1)

/-- Every piece of the sentence split is delimiter free. -/
theorem sdGo_pieces : ∀ (l : List Char) (skip : Bool) (acc : List Char),
    (skip = true → acc = []) → noDotWs acc.reverse = true →
    (acc.head? = some '.' → ∃ d r, l = d :: r ∧ jsWs d = false) →
    ∀ p ∈ sdGo skip acc l, noDotWs p = true := by
  intro l
  induction l with
  | nil =>
    intro skip acc _ hacc _ p hp
    simp only [sdGo, List.mem_singleton] at hp
    exact hp ▸ hacc
  | cons c rest ih =>
    intro skip acc hskip hacc hbd p hp
    rw [sdGo.eq_def] at hp
    dsimp only at hp
    by_cases hc : c = '.'
    · rw [if_pos hc] at hp
      cases rest with
      | nil =>
        simp only [List.mem_singleton] at hp
        subst hp
        subst hc
        rw [List.reverse_cons]
        exact noDotWs_append _ _ hacc (fun hc2 => by simp [jsWs_dot] at hc2)
      | cons d r2 =>
        dsimp only at hp
        by_cases hd : jsWs d = true
        · rw [if_pos hd] at hp
          rcases List.mem_cons.mp hp with hp | hp
          · exact hp ▸ hacc
          · exact ih true [] (fun _ => rfl) rfl (by simp) p hp
        · rw [if_neg hd] at hp
          refine ih false ('.' :: acc) (by simp) ?_ ?_ p hp
          · subst hc
            rw [List.reverse_cons]
            exact noDotWs_append _ _ hacc (fun hc2 => by simp [jsWs_dot] at hc2)
          · intro _
            exact ⟨d, r2, rfl, by simpa using hd⟩
    · rw [if_neg hc] at hp
      by_cases hs : (skip && jsWs c) = true
      · rw [if_pos hs] at hp
        have hacc0 : acc = [] := hskip (by simpa using (Bool.and_eq_true _ _ |>.mp hs).1)
        subst hacc0
        exact ih skip [] (fun _ => rfl) rfl (by simp) p hp
      · rw [if_neg hs] at hp
        refine ih false (c :: acc) (by simp) ?_ ?_ p hp
        · rw [List.reverse_cons]
          refine noDotWs_append _ _ hacc (fun hcw => ?_)
          rw [List.getLast?_reverse]
          intro hdot
          obtain ⟨d, r, hdr, hdw⟩ := hbd hdot
          have : d = c := by
            have := congrArg List.head? hdr
            simpa using this.symm
          rw [this] at hdw
          rw [hdw] at hcw
          exact absurd hcw (by simp)
        · intro hch
          simp only [List.head?_cons, Option.some.injEq] at hch
          exact absurd hch hc

/-- A delimiter-free text is a single sentence regardless of scanner
state. -/
theorem sdGo_len_one : ∀ (l : List Char), noDotWs l = true →
    ∀ (skip : Bool) (acc : List Char), (sdGo skip acc l).length = 1 := by
  intro l
  induction l with
  | nil => intro _ skip acc; simp [sdGo]
  | cons c rest ih =>
    intro h skip acc
    rw [sdGo.eq_def]
    dsimp only
    by_cases hc : c = '.'
    · rw [if_pos hc]
      cases rest with
      | nil => simp
      | cons d r2 =>
        dsimp only
        by_cases hd : jsWs d = true
        · exfalso
          subst hc
          rw [noDotWs, if_pos ⟨rfl, hd⟩] at h
          exact absurd h (by simp)
        · rw [if_neg hd]
          exact ih (noDotWs_tail h) false ('.' :: acc)
    · rw [if_neg hc]
      by_cases hs : (skip && jsWs c) = true
      · rw [if_pos hs]; exact ih (noDotWs_tail h) skip acc
      · rw [if_neg hs]; exact ih (noDotWs_tail h) false (c :: acc)

/-- The number of pieces of the sentence split does not depend on the
scanner state. -/
theorem sdGo_length : ∀ (l : List Char) (skip : Bool) (acc : List Char),
    (sdGo skip acc l).length = splitDotLen l := by
  intro l
  induction l with
  | nil => intro skip acc; simp [sdGo, splitDotLen, splitDot]
  | cons c rest ih =>
    intro skip acc
    have hgen : ∀ skip1 acc1 skip2 acc2,
        (sdGo skip1 acc1 (c :: rest)).length = (sdGo skip2 acc2 (c :: rest)).length := by
      intro skip1 acc1 skip2 acc2
      rw [sdGo.eq_def, sdGo.eq_def]
      dsimp only
      by_cases hc : c = '.'
      · rw [if_pos hc, if_pos hc]
        cases rest with
        | nil => simp
        | cons d r2 =>
          dsimp only
          by_cases hd : jsWs d = true
          · rw [if_pos hd, if_pos hd]
            simp
          · rw [if_neg hd, if_neg hd]
            rw [ih false ('.' :: acc1), ih false ('.' :: acc2)]
      · rw [if_neg hc, if_neg hc]
        by_cases hs1 : (skip1 && jsWs c) = true
        · rw [if_pos hs1]
          by_cases hs2 : (skip2 && jsWs c) = true
          · rw [if_pos hs2]
            rw [ih skip1 acc1, ih skip2 acc2]
          · rw [if_neg hs2]
            rw [ih skip1 acc1, ih false (c :: acc2)]
        · rw [if_neg hs1]
          by_cases hs2 : (skip2 && jsWs c) = true
          · rw [if_pos hs2]
            rw [ih false (c :: acc1), ih skip2 acc2]
          · rw [if_neg hs2]
            rw [ih false (c :: acc1), ih false (c :: acc2)]
    exact hgen skip acc false []

/-- Sentence counts are subadditive over concatenation. -/
theorem splitDotLen_append_le : ∀ (a b : List Char),
    splitDotLen (a ++ b) ≤ splitDotLen a + splitDotLen b := by
  intro a b
  induction a with
  | nil =>
    rw [List.nil_append]
    have h1 : splitDotLen ([] : List Char) = 1 := rfl
    omega
  | cons c rest ih =>
    show splitDotLen (c :: (rest ++ b)) ≤ splitDotLen (c :: rest) + splitDotLen b
    rw [splitDotLen, splitDot, sdGo.eq_def]
    conv_rhs => rw [splitDotLen, splitDot, sdGo.eq_def]
    dsimp only
    by_cases hc : c = '.'
    · rw [if_pos hc, if_pos hc]
      cases rest with
      | nil =>
        cases b with
        | nil => simp
        | cons d r2 =>
          simp only [List.nil_append]
          by_cases hd : jsWs d = true
          · rw [if_pos hd]
            simp only [List.length_cons, List.length_singleton]
            rw [sdGo_length]
            have h2 : 1 ≤ splitDotLen (d :: r2) := by
              rw [← sdGo_length (d :: r2) false []]
              have := sdGo_ne_nil (d :: r2) false []
              cases hgo : sdGo false [] (d :: r2) with
              | nil => exact absurd hgo this
              | cons x xs => simp
            omega
          · rw [if_neg hd]
            simp only [List.length_singleton]
            rw [sdGo_length]
            have h2 : 1 ≤ splitDotLen (d :: r2) := by
              rw [← sdGo_length (d :: r2) false []]
              have := sdGo_ne_nil (d :: r2) false []
              cases hgo : sdGo false [] (d :: r2) with
              | nil => exact absurd hgo this
              | cons x xs => simp
            omega
      | cons e r3 =>
        simp only [List.cons_append] at ih ⊢
        by_cases he : jsWs e = true
        · rw [if_pos he, if_pos he]
          simp only [List.length_cons]
          rw [sdGo_length, sdGo_length]
          omega
        · rw [if_neg he, if_neg he]
          rw [sdGo_length, sdGo_length]
          omega
    · rw [if_neg hc, if_neg hc]
      by_cases hs : (false && jsWs c) = true
      · exact absurd hs (by simp)
      · rw [if_neg hs, if_neg hs]
        rw [sdGo_length, sdGo_length]
        omega

/-! ## Prepared sentences are well-formed -/

/-- The head surviving dropWhile fails the predicate. -/
theorem head_dropWhile_false (p : Char → Bool) : ∀ (l : List Char) (c : Char),
    (l.dropWhile p).head? = some c → p c = false := by
  intro l
  induction l with
  | nil => intro c hc; simp at hc
  | cons a t ih =>
    intro c hc
    by_cases ha : p a = true
    · rw [List.dropWhile_cons_of_pos ha] at hc
      exact ih c hc
    · rw [List.dropWhile_cons_of_neg (by simpa using ha)] at hc
      simp only [List.head?_cons, Option.some.injEq] at hc
      rw [← hc]
      simpa using ha

/-- Every list is its right trim followed by trailing whitespace. -/
theorem trimR_decomp (x : List Char) : ∃ w, x = trimR x ++ w := by
  refine ⟨(x.reverse.takeWhile jsWs).reverse, ?_⟩
  conv_lhs => rw [← List.reverse_reverse x,
    show x.reverse = x.reverse.takeWhile jsWs ++ x.reverse.dropWhile jsWs from
      (List.takeWhile_append_dropWhile ..).symm]
  rw [List.reverse_append, trimR, trimL]

/-- The head of a trimmed list is not whitespace. -/
theorem jsTrim_head_not_ws {l : List Char} {c : Char}
    (hc : (jsTrim l).head? = some c) : jsWs c = false := by
  obtain ⟨w, hw⟩ := trimR_decomp (trimL l)
  have hne : trimR (trimL l) ≠ [] := by
    intro h0
    rw [jsTrim, h0] at hc
    simp at hc
  have hh : (trimR (trimL l)).head? = (trimL l).head? := by
    conv_rhs => rw [hw]
    cases htr : trimR (trimL l) with
    | nil => exact absurd htr hne
    | cons x t => simp
  rw [jsTrim, hh, trimL] at hc
  exact head_dropWhile_false jsWs l c hc

/-- The last character of a trimmed list is not whitespace. -/
theorem jsTrim_last_not_ws {l : List Char} {c : Char}
    (hc : (jsTrim l).getLast? = some c) : jsWs c = false := by
  rw [jsTrim, trimR, List.getLast?_reverse, trimL] at hc
  exact head_dropWhile_false jsWs (trimL l).reverse c hc

/-- Trimming is idempotent. -/
theorem jsTrim_idem (l : List Char) : jsTrim (jsTrim l) = jsTrim l :=
  jsTrim_fix (fun _ hc => jsTrim_head_not_ws hc) (fun _ hc => jsTrim_last_not_ws hc)

/-- Well-formedness of a prepared sentence: empty (skipped by the loops), or
delimiter-free, trim-fixed and nonempty. -/
def itemOK (i : List Char) : Prop :=
  i = [] ∨ (noDotWs i = true ∧ jsTrim i = i ∧ i ≠ [])

/-- Prepared sentences of delimiter-free pieces are well-formed. -/
theorem prepare_itemOK : ∀ (ps : List (List Char)),
    (∀ p ∈ ps, noDotWs p = true) → ∀ i ∈ prepare ps, itemOK i := by
  intro ps
  induction ps with
  | nil => intro _ i hi; simp [prepare] at hi
  | cons p rest ih =>
    intro h i hi
    rw [prepare.eq_def] at hi
    dsimp only at hi
    cases rest with
    | nil =>
      simp only [List.mem_singleton] at hi
      subst hi
      by_cases ht : jsTrim p = []
      · exact Or.inl ht
      · exact Or.inr ⟨noDotWs_jsTrim (h p (by simp)), jsTrim_idem p, ht⟩
    | cons q rest2 =>
      rcases List.mem_cons.mp hi with hi | hi
      · by_cases ht : jsTrim p = []
        · rw [if_pos ht] at hi
          exact Or.inl hi
        · rw [if_neg ht] at hi
          subst hi
          refine Or.inr ⟨?_, ?_, by simp⟩
          · exact noDotWs_append _ _ (noDotWs_jsTrim (h p (by simp)))
              (fun hcw => by simp [jsWs_dot] at hcw)
          · refine jsTrim_fix (fun c hc => ?_) (fun c hc => ?_)
            · have hh : (jsTrim p ++ ['.']).head? = (jsTrim p).head? := by
                cases htp : jsTrim p with
                | nil => exact absurd htp ht
                | cons x t => simp
              rw [hh] at hc
              exact jsTrim_head_not_ws hc
            · rw [List.getLast?_append_of_ne_nil (jsTrim p) (by simp : (['.'] : List Char) ≠ [])] at hc
              simp only [List.getLast?_singleton, Option.some.injEq] at hc
              rw [← hc]
              exact jsWs_dot
      · exact ih (fun x hx => h x (List.mem_cons_of_mem _ hx)) i hi

/-! ## Keyword paragraphs of the sentence fallback (claim C4) -/

/-- Every list is a prefix of itself. -/
theorem startsWithL_refl : ∀ (l : List Char), startsWithL l l = true := by
  intro l
  induction l with
  | nil => rfl
  | cons c t ih => simp [startsWithL, ih]

/-- A keyword hit makes the section test succeed. -/
theorem isSectionStart_of_keyword {k s : List Char} (hk : k ∈ newSectionKeywords)
    (hs : startsWithL k (s.map upperC) = true) : isSectionStart s = true := by
  rw [isSectionStart, List.any_eq_true]
  exact ⟨k, hk, by simp [hs]⟩

/-- shouldStartNewParagraph on a nonempty accumulator is the section test. -/
theorem shouldStart_of {s cur : List Char} (hcur : cur ≠ [])
    (hs : isSectionStart s = true) : shouldStartNewParagraph s cur = true := by
  rw [shouldStartNewParagraph, if_neg hcur]
  exact hs

/-- Prepending a space preserves delimiter freedom. -/
theorem noDotWs_cons_space {s : List Char} (h : noDotWs s = true) :
    noDotWs (' ' :: s) = true := by
  cases s with
  | nil => rfl
  | cons x t =>
    rw [noDotWs, if_neg]
    · exact h
    · rintro ⟨h1, -⟩
      exact absurd h1 (by decide)

/-- The paragraph accumulator of the reconstruction loop is pure output:
what is already pushed is never touched again. -/
theorem recGo_acc : ∀ (items : List (List Char)) (cur : List Char)
    (paras : List (List Char)),
    recGo items cur paras = paras ++ recGo items cur [] := by
  intro items
  induction items with
  | nil =>
    intro cur paras
    rw [recGo]
    conv_rhs => rw [recGo]
    split
    · simp
    · simp
  | cons s rest ih =>
    intro cur paras
    rw [recGo]
    conv_rhs => rw [recGo]
    by_cases hs : s = []
    · rw [if_pos hs, if_pos hs]
      exact ih cur paras
    · rw [if_neg hs, if_neg hs]
      dsimp only
      by_cases hkw : shouldStartNewParagraph s cur = true
      · rw [if_pos hkw, if_pos hkw]
        dsimp only
        by_cases ht : jsTrim cur = []
        · rw [if_pos ht, if_pos ht]
          by_cases hf : 3 ≤ splitDotLen s
          · rw [if_pos hf, if_pos hf]
            rw [ih [] ([] ++ [jsTrim s]), ih [] (paras ++ [jsTrim s])]
            simp
          · rw [if_neg hf, if_neg hf]
            exact ih s paras
        · rw [if_neg ht, if_neg ht]
          by_cases hf : 3 ≤ splitDotLen s
          · rw [if_pos hf, if_pos hf]
            rw [ih [] (paras ++ [jsTrim cur] ++ [jsTrim s]),
              ih [] ([] ++ [jsTrim cur] ++ [jsTrim s])]
            simp
          · rw [if_neg hf, if_neg hf]
            rw [ih s (paras ++ [jsTrim cur]), ih s ([] ++ [jsTrim cur])]
            simp
      · rw [if_neg hkw, if_neg hkw]
        dsimp only
        by_cases hf : 3 ≤ splitDotLen (cur ++ if cur = [] then s else ' ' :: s)
        · rw [if_pos hf, if_pos hf]
          rw [ih [] (paras ++ [jsTrim (cur ++ if cur = [] then s else ' ' :: s)]),
            ih [] ([] ++ [jsTrim (cur ++ if cur = [] then s else ' ' :: s)])]
          simp
        · rw [if_neg hf, if_neg hf]
          exact ih _ paras

/-- A break-free list stays break-free when its head is dropped. -/
theorem noBR_tail {a : Char} {l : List Char} (h : noBreakRun (a :: l) = true) :
    noBreakRun l = true := by
  cases l with
  | nil => rfl
  | cons b r =>
    rw [noBreakRun] at h
    split at h
    · exact absurd h Bool.false_ne_true
    · split at h
      · exact absurd h Bool.false_ne_true
      · exact h

/-- On a break-free text the tier-a scanner emits a single piece: the
pending characters of each state followed by the remaining input. -/
theorem isGo_single : ∀ (l : List Char),
    (∀ acc, noBreakRun l = true → isGo .norm acc l = [acc.reverse ++ l]) ∧
    (∀ acc, noBreakRun ('\n' :: l) = true →
      isGo .nl1 acc l = [acc.reverse ++ '\n' :: l]) ∧
    (∀ acc, noBreakRun ('.' :: l) = true →
      isGo .dot1 acc l = [acc.reverse ++ '.' :: l]) ∧
    (∀ acc, noBreakRun ('.' :: '.' :: l) = true →
      isGo .dot2 acc l = [acc.reverse ++ '.' :: '.' :: l]) := by
  intro l
  induction l with
  | nil =>
    refine ⟨?_, ?_, ?_, ?_⟩ <;> intro acc _ <;> simp [isGo]
  | cons c rest ih =>
    refine ⟨?_, ?_, ?_, ?_⟩
    · intro acc h
      by_cases hn : c = '\n'
      · subst hn
        simpa [isGo] using (ih).2.1 acc h
      · by_cases hd : c = '.'
        · subst hd
          simpa [isGo] using (ih).2.2.1 acc h
        · simpa [isGo, hn, hd] using (ih).1 (c :: acc) (noBR_tail h)
    · intro acc h
      by_cases hn : c = '\n'
      · subst hn
        have hfalse : noBreakRun ('\n' :: '\n' :: rest) = true → False := by
          intro hx
          rw [noBreakRun, if_pos ⟨rfl, rfl⟩] at hx
          exact absurd hx Bool.false_ne_true
        exact absurd h hfalse
      · by_cases hd : c = '.'
        · subst hd
          simpa [isGo] using (ih).2.2.1 ('\n' :: acc) (noBR_tail h)
        · simpa [isGo, hn, hd] using
            (ih).1 (c :: '\n' :: acc) (noBR_tail (noBR_tail h))
    · intro acc h
      by_cases hd : c = '.'
      · subst hd
        simpa [isGo] using (ih).2.2.2 acc h
      · by_cases hn : c = '\n'
        · subst hn
          simpa [isGo] using (ih).2.1 ('.' :: acc) (noBR_tail h)
        · simpa [isGo, hn, hd] using
            (ih).1 (c :: '.' :: acc) (noBR_tail (noBR_tail h))
    · intro acc h
      by_cases hd : c = '.'
      · subst hd
        have hfalse : noBreakRun ('.' :: '.' :: '.' :: rest) = true → False := by
          intro hx
          rw [noBreakRun, if_neg, if_pos ⟨rfl, rfl, rfl⟩] at hx
          · exact absurd hx Bool.false_ne_true
          · rintro ⟨h1, -⟩
            exact absurd h1 (by decide)
        exact absurd h hfalse
      · by_cases hn : c = '\n'
        · subst hn
          simpa [isGo] using
            (ih).2.1 ('.' :: '.' :: acc) (noBR_tail (noBR_tail h))
        · simpa [isGo, hn, hd] using
            (ih).1 (c :: '.' :: '.' :: acc) (noBR_tail (noBR_tail (noBR_tail h)))

/-- On a break-free text tier-a yields a single piece, the text itself. -/
theorem initialSplit_single {l : List Char} (h : noBreakRun l = true) :
    initialSplit l = [l] := by
  have := (isGo_single l).1 [] h
  simpa [initialSplit] using this

/-- On a break-free text segmentation takes the sentence fallback. -/
theorem segmentInitial_noBR {l : List Char} (h : noBreakRun l = true) :
    segmentInitial l = reconstruct l := by
  rw [segmentInitial, if_pos]
  rw [initialSplit_single h]
  rfl


/-- If the accumulator starts with `pfx`, some emitted paragraph starts
with `pfx`: the accumulator content is never dropped once nonempty. -/
theorem recGo_realize : ∀ (items : List (List Char)) (cur : List Char)
    (paras : List (List Char)) (pfx : List Char),
    (∀ x ∈ items, itemOK x) → startsWithL pfx cur = true →
    jsTrim cur = cur → cur ≠ [] →
    ∃ pre P post, recGo items cur paras = paras ++ (pre ++ P :: post) ∧
      startsWithL pfx P = true := by
  intro items
  induction items with
  | nil =>
    intro cur paras pfx _ hpfx hfix hne
    rw [recGo, hfix, if_neg hne]
    exact ⟨[], cur, [], by simp, hpfx⟩
  | cons s rest ih =>
    intro cur paras pfx hitems hpfx hfix hne
    rw [recGo]
    by_cases hs : s = []
    · rw [if_pos hs]
      exact ih cur paras pfx (fun x hx => hitems x (List.mem_cons_of_mem s hx))
        hpfx hfix hne
    · rw [if_neg hs]
      dsimp only
      rcases hitems s (List.mem_cons_self s rest) with rfl | ⟨hnd, hfixs, -⟩
      · exact absurd rfl hs
      by_cases hkw : shouldStartNewParagraph s cur = true
      · rw [if_pos hkw]
        dsimp only
        rw [hfix, if_neg hne]
        by_cases hf : 3 ≤ splitDotLen s
        · rw [if_pos hf]
          rw [recGo_acc rest [] (paras ++ [cur] ++ [jsTrim s])]
          exact ⟨[], cur, jsTrim s :: recGo rest [] [], by simp, hpfx⟩
        · rw [if_neg hf]
          rw [recGo_acc rest s (paras ++ [cur])]
          exact ⟨[], cur, recGo rest s [], by simp, hpfx⟩
      · rw [if_neg hkw]
        dsimp only
        rw [if_neg hne]
        have hfix1 : jsTrim (cur ++ ' ' :: s) = cur ++ ' ' :: s :=
          jsTrim_fix_append hfix hne hfixs hs
        by_cases hf : 3 ≤ splitDotLen (cur ++ ' ' :: s)
        · rw [if_pos hf]
          rw [recGo_acc rest [] (paras ++ [jsTrim (cur ++ ' ' :: s)]), hfix1]
          exact ⟨[], cur ++ ' ' :: s, recGo rest [] [], by simp,
            startsWithL_append pfx cur (' ' :: s) hpfx⟩
        · rw [if_neg hf]
          exact ih (cur ++ ' ' :: s) paras pfx
            (fun x hx => hitems x (List.mem_cons_of_mem s hx))
            (startsWithL_append pfx cur (' ' :: s) hpfx) hfix1 (by simp)

/-- A nonempty prepared keyword sentence splits into a single sentence. -/
theorem splitDotLen_item {s : List Char} (hnd : noDotWs s = true) :
    splitDotLen s = 1 := by
  rw [splitDotLen, splitDot]
  exact sdGo_len_one s hnd false []

/-- A keyword sentence still ahead in the item list is realized: some
later paragraph starts with it. -/
theorem recGo_findL : ∀ (bs : List (List Char)) (sj : List Char)
    (cs : List (List Char)) (cur : List Char) (paras : List (List Char)),
    (∀ x ∈ bs ++ sj :: cs, itemOK x) → jsTrim cur = cur →
    sj ≠ [] → isSectionStart sj = true →
    ∃ pre Q post, recGo (bs ++ sj :: cs) cur paras = paras ++ (pre ++ Q :: post) ∧
      startsWithL sj Q = true := by
  intro bs
  induction bs with
  | nil =>
    intro sj cs cur paras hitems hfix hsj hkwj
    rw [List.nil_append, recGo, if_neg hsj]
    dsimp only
    rcases hitems sj (List.mem_cons_self sj cs) with rfl | ⟨hnd, hfixs, -⟩
    · exact absurd rfl hsj
    have hitems2 : ∀ x ∈ cs, itemOK x :=
      fun x hx => hitems x (List.mem_cons_of_mem sj hx)
    have hf : ¬(3 ≤ splitDotLen sj) := by
      rw [splitDotLen_item hnd]
      omega
    by_cases hcur0 : cur = []
    · subst hcur0
      have hkw : ¬(shouldStartNewParagraph sj [] = true) := by
        rw [shouldStartNewParagraph, if_pos rfl]
        simp
      rw [if_neg hkw]
      dsimp only
      rw [if_pos rfl]
      simp only [List.nil_append]
      rw [if_neg hf]
      exact recGo_realize cs sj paras sj hitems2 (startsWithL_refl sj) hfixs hsj
    · have hkw : shouldStartNewParagraph sj cur = true := shouldStart_of hcur0 hkwj
      rw [if_pos hkw]
      dsimp only
      rw [hfix, if_neg hcur0, if_neg hf]
      obtain ⟨pre, P, post, heq, hP⟩ :=
        recGo_realize cs sj (paras ++ [cur]) sj hitems2 (startsWithL_refl sj)
          hfixs hsj
      exact ⟨cur :: pre, P, post, by rw [heq]; simp, hP⟩
  | cons b bs2 ih =>
    intro sj cs cur paras hitems hfix hsj hkwj
    rw [List.cons_append, recGo]
    have hitems2 : ∀ x ∈ bs2 ++ sj :: cs, itemOK x :=
      fun x hx => hitems x (List.mem_cons_of_mem b hx)
    by_cases hb : b = []
    · rw [if_pos hb]
      exact ih sj cs cur paras hitems2 hfix hsj hkwj
    · rw [if_neg hb]
      dsimp only
      rcases hitems b (List.mem_cons_self b _) with rfl | ⟨hndb, hfixb, -⟩
      · exact absurd rfl hb
      by_cases hkw : shouldStartNewParagraph b cur = true
      · rw [if_pos hkw]
        dsimp only
        rw [hfix]
        have hf : ¬(3 ≤ splitDotLen b) := by
          rw [splitDotLen_item hndb]
          omega
        rw [if_neg hf]
        by_cases ht : cur = []
        · rw [if_pos ht]
          exact ih sj cs b paras hitems2 hfixb hsj hkwj
        · rw [if_neg ht]
          obtain ⟨pre, Q, post, heq, hQ⟩ :=
            ih sj cs b (paras ++ [cur]) hitems2 hfixb hsj hkwj
          exact ⟨cur :: pre, Q, post, by rw [heq]; simp, hQ⟩
      · rw [if_neg hkw]
        dsimp only
        by_cases ht : cur = []
        · subst ht
          rw [if_pos rfl]
          simp only [List.nil_append]
          have hf : ¬(3 ≤ splitDotLen b) := by
            rw [splitDotLen_item hndb]
            omega
          rw [if_neg hf]
          exact ih sj cs b paras hitems2 hfixb hsj hkwj
        · rw [if_neg ht]
          have hfix1 : jsTrim (cur ++ ' ' :: b) = cur ++ ' ' :: b :=
            jsTrim_fix_append hfix ht hfixb hb
          by_cases hf : 3 ≤ splitDotLen (cur ++ ' ' :: b)
          · rw [if_pos hf, hfix1]
            obtain ⟨pre, Q, post, heq, hQ⟩ :=
              ih sj cs [] (paras ++ [cur ++ ' ' :: b]) hitems2 rfl hsj hkwj
            exact ⟨(cur ++ ' ' :: b) :: pre, Q, post, by rw [heq]; simp, hQ⟩
          · rw [if_neg hf]
            exact ih sj cs (cur ++ ' ' :: b) paras hitems2 hfix1 hsj hkwj

/-- A nonempty accumulator starting with `pfx`, with a keyword sentence
still ahead, yields two ordered paragraphs: one starting with `pfx`,
a later one starting with the keyword sentence. -/
theorem recGo_tc : ∀ (bs : List (List Char)) (sj : List Char)
    (cs : List (List Char)) (cur : List Char) (paras : List (List Char))
    (pfx : List Char),
    (∀ x ∈ bs ++ sj :: cs, itemOK x) → startsWithL pfx cur = true →
    jsTrim cur = cur → cur ≠ [] → sj ≠ [] → isSectionStart sj = true →
    ∃ pre P mid Q post,
      recGo (bs ++ sj :: cs) cur paras =
        paras ++ (pre ++ P :: (mid ++ Q :: post)) ∧
      startsWithL pfx P = true ∧ startsWithL sj Q = true := by
  intro bs
  induction bs with
  | nil =>
    intro sj cs cur paras pfx hitems hpfx hfix hne hsj hkwj
    rw [List.nil_append, recGo, if_neg hsj]
    dsimp only
    rcases hitems sj (List.mem_cons_self sj cs) with rfl | ⟨hnd, hfixs, -⟩
    · exact absurd rfl hsj
    have hkw : shouldStartNewParagraph sj cur = true := shouldStart_of hne hkwj
    rw [if_pos hkw]
    dsimp only
    rw [hfix, if_neg hne]
    have hf : ¬(3 ≤ splitDotLen sj) := by
      rw [splitDotLen_item hnd]
      omega
    rw [if_neg hf]
    obtain ⟨pre2, Q, post, heq, hQ⟩ :=
      recGo_realize cs sj (paras ++ [cur]) sj
        (fun x hx => hitems x (List.mem_cons_of_mem sj hx))
        (startsWithL_refl sj) hfixs hsj
    exact ⟨[], cur, pre2, Q, post, by rw [heq]; simp, hpfx, hQ⟩
  | cons b bs2 ih =>
    intro sj cs cur paras pfx hitems hpfx hfix hne hsj hkwj
    rw [List.cons_append, recGo]
    have hitems2 : ∀ x ∈ bs2 ++ sj :: cs, itemOK x :=
      fun x hx => hitems x (List.mem_cons_of_mem b hx)
    by_cases hb : b = []
    · rw [if_pos hb]
      exact ih sj cs cur paras pfx hitems2 hpfx hfix hne hsj hkwj
    · rw [if_neg hb]
      dsimp only
      rcases hitems b (List.mem_cons_self b _) with rfl | ⟨hndb, hfixb, -⟩
      · exact absurd rfl hb
      by_cases hkw : shouldStartNewParagraph b cur = true
      · rw [if_pos hkw]
        dsimp only
        rw [hfix, if_neg hne]
        have hf : ¬(3 ≤ splitDotLen b) := by
          rw [splitDotLen_item hndb]
          omega
        rw [if_neg hf]
        obtain ⟨pre2, Q, post, heq, hQ⟩ :=
          recGo_findL bs2 sj cs b (paras ++ [cur]) hitems2 hfixb hsj hkwj
        exact ⟨[], cur, pre2, Q, post, by rw [heq]; simp, hpfx, hQ⟩
      · rw [if_neg hkw]
        dsimp only
        rw [if_neg hne]
        have hfix1 : jsTrim (cur ++ ' ' :: b) = cur ++ ' ' :: b :=
          jsTrim_fix_append hfix hne hfixb hb
        by_cases hf : 3 ≤ splitDotLen (cur ++ ' ' :: b)
        · rw [if_pos hf, hfix1]
          obtain ⟨pre2, Q, post, heq, hQ⟩ :=
            recGo_findL bs2 sj cs [] (paras ++ [cur ++ ' ' :: b]) hitems2 rfl
              hsj hkwj
          exact ⟨[], cur ++ ' ' :: b, pre2, Q, post, by rw [heq]; simp,
            startsWithL_append pfx cur (' ' :: b) hpfx, hQ⟩
        · rw [if_neg hf]
          exact ih sj cs (cur ++ ' ' :: b) paras pfx hitems2
            (startsWithL_append pfx cur (' ' :: b) hpfx) hfix1 (by simp)
            hsj hkwj

/-- Two keyword sentences ahead in the item list are realized in order:
a paragraph starting with the first precedes one starting with the second. -/
theorem recGo_two : ∀ (al : List (List Char)) (si : List Char)
    (bs : List (List Char)) (sj : List Char) (cs : List (List Char))
    (cur : List Char) (paras : List (List Char)),
    (∀ x ∈ al ++ si :: (bs ++ sj :: cs), itemOK x) → jsTrim cur = cur →
    si ≠ [] → isSectionStart si = true → sj ≠ [] → isSectionStart sj = true →
    ∃ pre P mid Q post,
      recGo (al ++ si :: (bs ++ sj :: cs)) cur paras =
        paras ++ (pre ++ P :: (mid ++ Q :: post)) ∧
      startsWithL si P = true ∧ startsWithL sj Q = true := by
  intro al
  induction al with
  | nil =>
    intro si bs sj cs cur paras hitems hfix hsi hkwi hsj hkwj
    rw [List.nil_append, recGo, if_neg hsi]
    dsimp only
    rcases hitems si (List.mem_cons_self si _) with rfl | ⟨hnd, hfixs, -⟩
    · exact absurd rfl hsi
    have hitems2 : ∀ x ∈ bs ++ sj :: cs, itemOK x :=
      fun x hx => hitems x (List.mem_cons_of_mem si hx)
    have hf : ¬(3 ≤ splitDotLen si) := by
      rw [splitDotLen_item hnd]
      omega
    by_cases hcur0 : cur = []
    · subst hcur0
      have hkw : ¬(shouldStartNewParagraph si [] = true) := by
        rw [shouldStartNewParagraph, if_pos rfl]
        simp
      rw [if_neg hkw]
      dsimp only
      rw [if_pos rfl]
      simp only [List.nil_append]
      rw [if_neg hf]
      exact recGo_tc bs sj cs si paras si hitems2 (startsWithL_refl si)
        hfixs hsi hsj hkwj
    · have hkw : shouldStartNewParagraph si cur = true := shouldStart_of hcur0 hkwi
      rw [if_pos hkw]
      dsimp only
      rw [hfix, if_neg hcur0, if_neg hf]
      obtain ⟨pre, P, mid, Q, post, heq, hP, hQ⟩ :=
        recGo_tc bs sj cs si (paras ++ [cur]) si hitems2 (startsWithL_refl si)
          hfixs hsi hsj hkwj
      exact ⟨cur :: pre, P, mid, Q, post, by rw [heq]; simp, hP, hQ⟩
  | cons a al2 ih =>
    intro si bs sj cs cur paras hitems hfix hsi hkwi hsj hkwj
    rw [List.cons_append, recGo]
    have hitems2 : ∀ x ∈ al2 ++ si :: (bs ++ sj :: cs), itemOK x :=
      fun x hx => hitems x (List.mem_cons_of_mem a hx)
    by_cases ha : a = []
    · rw [if_pos ha]
      exact ih si bs sj cs cur paras hitems2 hfix hsi hkwi hsj hkwj
    · rw [if_neg ha]
      dsimp only
      rcases hitems a (List.mem_cons_self a _) with rfl | ⟨hnda, hfixa, -⟩
      · exact absurd rfl ha
      by_cases hkw : shouldStartNewParagraph a cur = true
      · rw [if_pos hkw]
        dsimp only
        rw [hfix]
        have hf : ¬(3 ≤ splitDotLen a) := by
          rw [splitDotLen_item hnda]
          omega
        rw [if_neg hf]
        by_cases ht : cur = []
        · rw [if_pos ht]
          exact ih si bs sj cs a paras hitems2 hfixa hsi hkwi hsj hkwj
        · rw [if_neg ht]
          obtain ⟨pre, P, mid, Q, post, heq, hP, hQ⟩ :=
            ih si bs sj cs a (paras ++ [cur]) hitems2 hfixa hsi hkwi hsj hkwj
          exact ⟨cur :: pre, P, mid, Q, post, by rw [heq]; simp, hP, hQ⟩
      · rw [if_neg hkw]
        dsimp only
        by_cases ht : cur = []
        · subst ht
          rw [if_pos rfl]
          simp only [List.nil_append]
          have hf : ¬(3 ≤ splitDotLen a) := by
            rw [splitDotLen_item hnda]
            omega
          rw [if_neg hf]
          exact ih si bs sj cs a paras hitems2 hfixa hsi hkwi hsj hkwj
        · rw [if_neg ht]
          have hfix1 : jsTrim (cur ++ ' ' :: a) = cur ++ ' ' :: a :=
            jsTrim_fix_append hfix ht hfixa ha
          by_cases hf : 3 ≤ splitDotLen (cur ++ ' ' :: a)
          · rw [if_pos hf, hfix1]
            obtain ⟨pre, P, mid, Q, post, heq, hP, hQ⟩ :=
              ih si bs sj cs [] (paras ++ [cur ++ ' ' :: a]) hitems2 rfl
                hsi hkwi hsj hkwj
            exact ⟨(cur ++ ' ' :: a) :: pre, P, mid, Q, post,
              by rw [heq]; simp, hP, hQ⟩
          · rw [if_neg hf]
            exact ih si bs sj cs (cur ++ ' ' :: a) paras hitems2 hfix1
              hsi hkwi hsj hkwj

/-- The flush at 3 sentences keeps every emitted paragraph at most 3
sentences long, as long as the accumulator holds at most 2. -/
theorem recGo_count : ∀ (items : List (List Char)) (cur : List Char)
    (paras : List (List Char)),
    (∀ x ∈ items, itemOK x) → jsTrim cur = cur → splitDotLen cur ≤ 2 →
    (∀ p ∈ paras, splitDotLen p ≤ 3) →
    ∀ p ∈ recGo items cur paras, splitDotLen p ≤ 3 := by
  intro items
  induction items with
  | nil =>
    intro cur paras _ hfix hcnt hparas p hp
    rw [recGo, hfix] at hp
    by_cases ht : cur = []
    · rw [if_pos ht] at hp
      exact hparas p hp
    · rw [if_neg ht] at hp
      rcases List.mem_append.mp hp with h | h
      · exact hparas p h
      · rw [List.mem_singleton] at h
        subst h
        omega
  | cons s rest ih =>
    intro cur paras hitems hfix hcnt hparas p hp
    rw [recGo] at hp
    have hitems2 : ∀ x ∈ rest, itemOK x :=
      fun x hx => hitems x (List.mem_cons_of_mem s hx)
    by_cases hs : s = []
    · rw [if_pos hs] at hp
      exact ih cur paras hitems2 hfix hcnt hparas p hp
    · rw [if_neg hs] at hp
      dsimp only at hp
      rcases hitems s (List.mem_cons_self s rest) with rfl | ⟨hnds, hfixs, -⟩
      · exact absurd rfl hs
      have hs1 : splitDotLen s = 1 := splitDotLen_item hnds
      by_cases hkw : shouldStartNewParagraph s cur = true
      · rw [if_pos hkw] at hp
        dsimp only at hp
        rw [hfix, if_neg (by omega : ¬(3 ≤ splitDotLen s))] at hp
        by_cases ht : cur = []
        · rw [if_pos ht] at hp
          exact ih s paras hitems2 hfixs (by omega) hparas p hp
        · rw [if_neg ht] at hp
          refine ih s (paras ++ [cur]) hitems2 hfixs (by omega) ?_ p hp
          intro q hq
          rcases List.mem_append.mp hq with h | h
          · exact hparas q h
          · rw [List.mem_singleton] at h
            subst h
            omega
      · rw [if_neg hkw] at hp
        dsimp only at hp
        by_cases ht : cur = []
        · subst ht
          rw [if_pos rfl] at hp
          simp only [List.nil_append] at hp
          rw [if_neg (by omega : ¬(3 ≤ splitDotLen s))] at hp
          exact ih s paras hitems2 hfixs (by omega) hparas p hp
        · rw [if_neg ht] at hp
          have hfix1 : jsTrim (cur ++ ' ' :: s) = cur ++ ' ' :: s :=
            jsTrim_fix_append hfix ht hfixs hs
          have hcnt1 : splitDotLen (cur ++ ' ' :: s) ≤ 3 := by
            have h1 := splitDotLen_append_le cur (' ' :: s)
            have h2 : splitDotLen (' ' :: s) = 1 :=
              splitDotLen_item (noDotWs_cons_space hnds)
            omega
          by_cases hf : 3 ≤ splitDotLen (cur ++ ' ' :: s)
          · rw [if_pos hf, hfix1] at hp
            have hc0 : splitDotLen ([] : List Char) ≤ 2 := by decide
            refine ih [] (paras ++ [cur ++ ' ' :: s]) hitems2 rfl hc0 ?_ p hp
            intro q hq
            rcases List.mem_append.mp hq with h | h
            · exact hparas q h
            · rw [List.mem_singleton] at h
              subst h
              exact hcnt1
          · rw [if_neg hf] at hp
            exact ih (cur ++ ' ' :: s) paras hitems2 hfix1 (by omega) hparas p hp

/-- C4: on a cleaned text free of double newlines and of runs of 3 or more
dots (so the tier-a split yields a single piece and segmentation takes the
sentence-level fallback), if the prepared sentence list contains a nonempty
sentence starting with SYNOPSIS and, later, a nonempty sentence starting
with TONIGHT, then the reconstruction emits a paragraph beginning with the
SYNOPSIS sentence and a distinct later paragraph beginning with the TONIGHT
sentence; moreover every emitted paragraph holds at most 3 sentences, the
accumulator being flushed when it reaches 3. -/
theorem c4_keyword_paragraphs (ct : String) (al bs cs : List (List Char))
    (si sj : List Char)
    (hbr : noBreakRun ct.data = true)
    (hsplit : prepare (splitDot ct.data) = al ++ si :: (bs ++ sj :: cs))
    (hsi : si ≠ [])
    (hkwi : startsWithL "SYNOPSIS".data (si.map upperC) = true)
    (hsj : sj ≠ [])
    (hkwj : startsWithL "TONIGHT".data (sj.map upperC) = true) :
    (∃ pre P mid Q post,
      segmentInitial ct.data = pre ++ P :: (mid ++ Q :: post) ∧
      startsWithL si P = true ∧ startsWithL sj Q = true) ∧
    ∀ p ∈ segmentInitial ct.data, splitDotLen p ≤ 3 := by
  have hpieces : ∀ p ∈ splitDot ct.data, noDotWs p = true :=
    fun p hp => sdGo_pieces ct.data false [] (by simp) rfl (by simp) p hp
  have hitems : ∀ i ∈ prepare (splitDot ct.data), itemOK i :=
    prepare_itemOK (splitDot ct.data) hpieces
  rw [hsplit] at hitems
  rw [segmentInitial_noBR hbr]
  simp only [reconstruct, hsplit]
  constructor
  · obtain ⟨pre, P, mid, Q, post, heq, hP, hQ⟩ :=
      recGo_two al si bs sj cs [] [] hitems rfl hsi
        (isSectionStart_of_keyword (List.mem_cons_self _ _) hkwi)
        hsj
        (isSectionStart_of_keyword (by simp [newSectionKeywords]) hkwj)
    exact ⟨pre, P, mid, Q, post, by rw [heq]; simp, hP, hQ⟩
  · exact recGo_count (al ++ si :: (bs ++ sj :: cs)) [] [] hitems rfl
      (by decide) (by simp)

set_option maxRecDepth 10000 in
/-- C4 witness: on "SYNOPSIS. High builds over the gulf. TONIGHT. Winds
ease late." the fallback yields a SYNOPSIS paragraph before a TONIGHT
paragraph, all paragraphs at most 3 sentences. -/
theorem c4_witness :
    (∃ pre P mid Q post,
      segmentInitial
        "SYNOPSIS. High builds over the gulf. TONIGHT. Winds ease late.".data =
        pre ++ P :: (mid ++ Q :: post) ∧
      startsWithL "SYNOPSIS.".data P = true ∧
      startsWithL "TONIGHT.".data Q = true) ∧
    ∀ p ∈ segmentInitial
        "SYNOPSIS. High builds over the gulf. TONIGHT. Winds ease late.".data,
      splitDotLen p ≤ 3 :=
  c4_keyword_paragraphs
    "SYNOPSIS. High builds over the gulf. TONIGHT. Winds ease late."
    [] ["High builds over the gulf.".data] ["Winds ease late.".data]
    "SYNOPSIS.".data "TONIGHT.".data
    (by decide) (by decide) (by decide) (by decide) (by decide) (by decide)

/-! ## Idempotence of cleaning on bullet- and usa.gov-free inputs (claim C8) -/

/-- No position of the input starts a case-insensitive `usa.gov` match. -/
def noUsaGov : List Char → Bool
  | [] => true
  | l@(_ :: rest) => !matchCI ['u', 's', 'a', '.', 'g', 'o', 'v'] l && noUsaGov rest

/-- Freedom from every bullet character of replaces 2 and 3. -/
def bulletFree (l : List Char) : Bool := l.all fun c => !(bullet2 c || bullet4 c)

/-- Head test used by the cleaning normal forms. -/
def headIsHs : List Char → Bool
  | [] => false
  | c :: _ => hsChar c

/-- Normal form of replace 4: every horizontal-whitespace character is a
space whose successor is not horizontal whitespace. -/
def hsOK : List Char → Bool
  | [] => true
  | c :: rest => (!(hsChar c) || (c = ' ' && !(headIsHs rest))) && hsOK rest

/-- Normal form of replace 5: no newline is followed by horizontal
whitespace. -/
def nlOK : List Char → Bool
  | [] => true
  | c :: rest => (!(c = '\n') || !(headIsHs rest)) && nlOK rest

/-- Normal form of replace 6: no run of 3 or more newlines. -/
def n3OK : List Char → Bool
  | [] => true
  | c :: rest => (!(c = '\n') || !(startsWithL ['\n', '\n'] rest)) && n3OK rest

/-- On a usa.gov-free input, replace 1 is the identity. -/
theorem ugGo_id : ∀ (f : Nat) (l : List Char), noUsaGov l = true →
    ugGo f false l = l := by
  intro f
  induction f with
  | zero => intro l _; rfl
  | succ f2 ih =>
    intro l h
    cases l with
    | nil => rfl
    | cons c rest =>
      rw [noUsaGov, Bool.and_eq_true, Bool.not_eq_true'] at h
      rw [ugGo, if_neg (by rw [h.1]; exact Bool.false_ne_true)]
      rw [ih rest h.2]

/-- On a bullet-free input, replace 2 is the identity. -/
theorem blGo_id : ∀ (l : List Char), bulletFree l = true →
    (∀ pend, blGo .lineStart pend l = pend.reverse ++ l) ∧
    blGo .mid [] l = l := by
  intro l
  induction l with
  | nil =>
    intro _
    exact ⟨fun pend => by simp [blGo], rfl⟩
  | cons c rest ih =>
    intro h
    rw [bulletFree, List.all_cons, Bool.and_eq_true] at h
    obtain ⟨hc, hrest⟩ := h
    rw [Bool.not_eq_true', Bool.or_eq_false_iff] at hc
    have ihr := ih hrest
    constructor
    · intro pend
      rw [blGo, if_neg (by rw [hc.1]; exact Bool.false_ne_true)]
      by_cases hw : jsWs c = true
      · rw [if_pos hw, ihr.1 (c :: pend)]
        simp
      · rw [if_neg hw, ihr.2]
    · rw [blGo]
      by_cases hn : c = '\n'
      · subst hn
        rw [if_pos rfl, ihr.1 []]
        rfl
      · rw [if_neg hn, ihr.2]

/-- On a bullet-free input, replace 3 is the identity. -/
theorem bcGo_id : ∀ (l : List Char), bulletFree l = true →
    ∀ pend, bcGo false pend l = pend.reverse ++ l := by
  intro l
  induction l with
  | nil => intro _ pend; simp [bcGo]
  | cons c rest ih =>
    intro h pend
    rw [bulletFree, List.all_cons, Bool.and_eq_true] at h
    obtain ⟨hc, hrest⟩ := h
    rw [Bool.not_eq_true', Bool.or_eq_false_iff] at hc
    rw [bcGo, if_neg (by rw [hc.2]; exact Bool.false_ne_true)]
    by_cases hw : jsWs c = true
    · rw [if_pos hw, ih hrest (c :: pend)]
      simp
    · rw [if_neg hw, ih hrest []]
      rfl

/-- Replace 4 establishes its normal form. -/
theorem hsRun_nf : ∀ (l : List Char),
    hsOK (hsRun false l) = true ∧
    hsOK (hsRun true l) = true ∧ headIsHs (hsRun true l) = false := by
  intro l
  induction l with
  | nil => exact ⟨rfl, rfl, rfl⟩
  | cons c rest ih =>
    obtain ⟨ih1, ih2, ih3⟩ := ih
    by_cases hc : hsChar c = true
    · have e1 : hsRun false (c :: rest) = ' ' :: hsRun true rest := by
        rw [hsRun, if_pos hc]
        rfl
      have e2 : hsRun true (c :: rest) = hsRun true rest := by
        rw [hsRun, if_pos hc]
        rfl
      have hok : hsOK (' ' :: hsRun true rest) = true := by
        rw [hsOK, Bool.and_eq_true]
        refine ⟨?_, ih2⟩
        rw [ih3]
        simp
      exact ⟨by rw [e1]; exact hok, by rw [e2]; exact ih2, by rw [e2]; exact ih3⟩
    · have hcf := Bool.eq_false_iff.mpr hc
      have e1 : hsRun false (c :: rest) = c :: hsRun false rest := by
        rw [hsRun, if_neg hc]
      have e2 : hsRun true (c :: rest) = c :: hsRun false rest := by
        rw [hsRun, if_neg hc]
      have hok : hsOK (c :: hsRun false rest) = true := by
        rw [hsOK, Bool.and_eq_true]
        refine ⟨?_, ih1⟩
        rw [hcf]
        simp
      exact ⟨by rw [e1]; exact hok, by rw [e2]; exact hok,
        by rw [e2, headIsHs, hcf]⟩

/-- Replace 4 is the identity on its normal form. -/
theorem hsRun_id : ∀ (l : List Char), hsOK l = true →
    hsRun false l = l ∧ (headIsHs l = false → hsRun true l = l) := by
  intro l
  induction l with
  | nil => exact fun _ => ⟨rfl, fun _ => rfl⟩
  | cons c rest ih =>
    intro h
    rw [hsOK, Bool.and_eq_true] at h
    obtain ⟨hc, hrest⟩ := h
    obtain ⟨ih1, ih2⟩ := ih hrest
    by_cases hch : hsChar c = true
    · have hsp : c = ' ' ∧ headIsHs rest = false := by
        rw [hch] at hc
        simp at hc
        exact ⟨hc.1, hc.2⟩
      constructor
      · rw [hsRun, if_pos hch]
        rw [show (if (false = true) then hsRun true rest else ' ' :: hsRun true rest) = ' ' :: hsRun true rest from rfl]
        rw [ih2 hsp.2, hsp.1]
      · intro hhead
        rw [headIsHs, hch] at hhead
        exact absurd hhead (by decide)
    · constructor
      · rw [hsRun, if_neg hch, ih1]
      · intro _
        rw [hsRun, if_neg hch, ih1]

/-- Replace 5 establishes its normal form. -/
theorem nlHs_nf : ∀ (l : List Char),
    (∀ b, nlOK (nlHs b l) = true) ∧ headIsHs (nlHs true l) = false := by
  intro l
  induction l with
  | nil => exact ⟨fun _ => rfl, rfl⟩
  | cons c rest ih =>
    obtain ⟨ih1, ih2⟩ := ih
    by_cases hch : hsChar c = true
    · have hnn : ¬(c = '\n') := by
        intro hx
        rw [hx] at hch
        exact absurd hch (by decide)
      constructor
      · intro b
        cases b with
        | false =>
          rw [nlHs, if_neg (by simp)]
          rw [nlOK, Bool.and_eq_true]
          exact ⟨by simp [hnn], ih1 _⟩
        | true =>
          rw [nlHs, if_pos (by simp [hch])]
          exact ih1 true
      · rw [nlHs, if_pos (by simp [hch])]
        exact ih2
    · have hcf := Bool.eq_false_iff.mpr hch
      have e : ∀ b : Bool, nlHs b (c :: rest) = c :: nlHs (c = '\n') rest := by
        intro b
        rw [nlHs, if_neg (by simp [hcf])]
      constructor
      · intro b
        rw [e b, nlOK, Bool.and_eq_true]
        refine ⟨?_, ih1 _⟩
        by_cases hn : c = '\n'
        · subst hn
          simpa using ih2
        · simp [hn]
      · rw [e true, headIsHs, hcf]

/-- Replace 5 is the identity on its normal form. -/
theorem nlHs_id : ∀ (l : List Char), nlOK l = true →
    nlHs false l = l ∧ (headIsHs l = false → nlHs true l = l) := by
  intro l
  induction l with
  | nil => exact fun _ => ⟨rfl, fun _ => rfl⟩
  | cons c rest ih =>
    intro h
    rw [nlOK, Bool.and_eq_true] at h
    obtain ⟨hc, hrest⟩ := h
    obtain ⟨ih1, ih2⟩ := ih hrest
    have main : c :: nlHs (c = '\n') rest = c :: rest := by
      by_cases hn : c = '\n'
      · subst hn
        have hb : headIsHs rest = false := by simpa using hc
        exact congrArg (List.cons '\n') (ih2 hb)
      · have hd : (decide (c = '\n')) = false := by simp [hn]
        rw [hd, ih1]
    constructor
    · rw [nlHs, if_neg (by simp)]
      exact main
    · intro hh
      rw [headIsHs] at hh
      rw [nlHs, if_neg (by simp [hh])]
      exact main

/-- A list not starting with a newline does not start with two. -/
theorem sw2_of_sw1 : ∀ (x : List Char), startsWithL ['\n'] x = false →
    startsWithL ['\n', '\n'] x = false := by
  intro x h
  cases x with
  | nil => rfl
  | cons d r =>
    rw [startsWithL, Bool.and_eq_false_iff] at h ⊢
    rcases h with h | h
    · exact Or.inl h
    · exact absurd h (by simp [startsWithL])

/-- Replace 6 establishes its normal form. -/
theorem nl3_nf : ∀ (l : List Char) (k : Nat),
    n3OK (nl3 k l) = true ∧
    (1 ≤ k → startsWithL ['\n', '\n'] (nl3 k l) = false) ∧
    (2 ≤ k → startsWithL ['\n'] (nl3 k l) = false) := by
  intro l
  induction l with
  | nil => exact fun _ => ⟨rfl, fun _ => rfl, fun _ => rfl⟩
  | cons c rest ih =>
    intro k
    by_cases hn : c = '\n'
    · subst hn
      by_cases hk : 2 ≤ k
      · have e : nl3 k ('\n' :: rest) = nl3 k rest := by
          rw [nl3, if_pos rfl, if_pos hk]
        have hsw1 := (ih k).2.2 hk
        refine ⟨by rw [e]; exact (ih k).1, ?_, ?_⟩
        · intro _
          rw [e]
          exact sw2_of_sw1 _ hsw1
        · intro _
          rw [e]
          exact hsw1
      · have e : nl3 k ('\n' :: rest) = '\n' :: nl3 (k + 1) rest := by
          rw [nl3, if_pos rfl, if_neg hk]
        refine ⟨?_, ?_, ?_⟩
        · rw [e, n3OK, Bool.and_eq_true]
          have h2 := (ih (k + 1)).2.1 (by omega)
          exact ⟨by simp [h2], (ih (k + 1)).1⟩
        · intro h1
          have h2 := (ih (k + 1)).2.2 (by omega)
          rw [e, startsWithL]
          simp [h2]
        · intro h2
          exact absurd h2 hk
    · have e : nl3 k (c :: rest) = c :: nl3 0 rest := by
        rw [nl3, if_neg hn]
      refine ⟨?_, ?_, ?_⟩
      · rw [e, n3OK, Bool.and_eq_true]
        exact ⟨by simp [hn], (ih 0).1⟩
      · intro _
        rw [e, startsWithL]
        simp [Ne.symm hn]
      · intro _
        rw [e, startsWithL]
        simp [Ne.symm hn]

/-- Replace 6 is the identity on its normal form. -/
theorem nl3_id : ∀ (l : List Char), n3OK l = true →
    nl3 0 l = l ∧
    (startsWithL ['\n', '\n'] l = false → nl3 1 l = l) ∧
    (startsWithL ['\n'] l = false → nl3 2 l = l) := by
  intro l
  induction l with
  | nil => exact fun _ => ⟨rfl, fun _ => rfl, fun _ => rfl⟩
  | cons c rest ih =>
    intro h
    rw [n3OK, Bool.and_eq_true] at h
    obtain ⟨hc, hrest⟩ := h
    obtain ⟨ih1, ih2, ih3⟩ := ih hrest
    by_cases hn : c = '\n'
    · subst hn
      have hsw2 : startsWithL ['\n', '\n'] rest = false := by simpa using hc
      refine ⟨?_, ?_, ?_⟩
      · rw [nl3, if_pos rfl, if_neg (by omega : ¬(2 ≤ 0))]
        rw [ih2 hsw2]
      · intro h1
        have hsw1 : startsWithL ['\n'] rest = false := by
          rw [startsWithL] at h1
          simpa using h1
        rw [nl3, if_pos rfl, if_neg (by omega : ¬(2 ≤ 1))]
        rw [ih3 hsw1]
      · intro h2
        rw [startsWithL] at h2
        simp [startsWithL] at h2
    · have e : ∀ k : Nat, nl3 k (c :: rest) = c :: nl3 0 rest := by
        intro k
        rw [nl3, if_neg hn]
      exact ⟨by rw [e 0, ih1], fun _ => by rw [e 1, ih1],
        fun _ => by rw [e 2, ih1]⟩

/-- A horizontal-whitespace head survives appending. -/
theorem headIsHs_mono {a b : List Char} (h : headIsHs a = true) :
    headIsHs (a ++ b) = true := by
  cases a with
  | nil => exact absurd h (by decide)
  | cons c r => exact h

/-- The normal form of replace 4 restricts to left factors. -/
theorem hsOK_append_left : ∀ (a b : List Char), hsOK (a ++ b) = true →
    hsOK a = true := by
  intro a b
  induction a with
  | nil => intro _; rfl
  | cons c r ih =>
    intro h
    rw [List.cons_append, hsOK, Bool.and_eq_true] at h
    rw [hsOK, Bool.and_eq_true]
    refine ⟨?_, ih h.2⟩
    rcases Bool.or_eq_true_iff.mp h.1 with h1 | h1
    · rw [h1]
      rfl
    · rw [Bool.and_eq_true] at h1
      rw [Bool.or_eq_true_iff]
      right
      rw [Bool.and_eq_true]
      refine ⟨h1.1, ?_⟩
      rw [Bool.not_eq_true'] at h1 ⊢
      cases hr : headIsHs r with
      | false => rfl
      | true => exact absurd (headIsHs_mono hr) (by rw [h1.2]; exact Bool.false_ne_true)

/-- The normal form of replace 5 restricts to left factors. -/
theorem nlOK_append_left : ∀ (a b : List Char), nlOK (a ++ b) = true →
    nlOK a = true := by
  intro a b
  induction a with
  | nil => intro _; rfl
  | cons c r ih =>
    intro h
    rw [List.cons_append, nlOK, Bool.and_eq_true] at h
    rw [nlOK, Bool.and_eq_true]
    refine ⟨?_, ih h.2⟩
    rcases Bool.or_eq_true_iff.mp h.1 with h1 | h1
    · rw [h1]
      rfl
    · rw [Bool.or_eq_true_iff]
      right
      rw [Bool.not_eq_true'] at h1 ⊢
      cases hr : headIsHs r with
      | false => rfl
      | true => exact absurd (headIsHs_mono hr) (by rw [h1]; exact Bool.false_ne_true)

/-- The normal form of replace 6 restricts to left factors. -/
theorem n3OK_append_left : ∀ (a b : List Char), n3OK (a ++ b) = true →
    n3OK a = true := by
  intro a b
  induction a with
  | nil => intro _; rfl
  | cons c r ih =>
    intro h
    rw [List.cons_append, n3OK, Bool.and_eq_true] at h
    rw [n3OK, Bool.and_eq_true]
    refine ⟨?_, ih h.2⟩
    rcases Bool.or_eq_true_iff.mp h.1 with h1 | h1
    · rw [h1]
      rfl
    · rw [Bool.or_eq_true_iff]
      right
      rw [Bool.not_eq_true'] at h1 ⊢
      cases hr : startsWithL ['\n', '\n'] r with
      | false => rfl
      | true =>
        exact absurd (startsWithL_append _ r b hr) (by rw [h1]; exact Bool.false_ne_true)

/-- Each cleaning normal form passes to tails, hence to dropWhile. -/
theorem hsOK_dropWhile (q : Char → Bool) : ∀ (l : List Char),
    hsOK l = true → hsOK (l.dropWhile q) = true := by
  intro l
  induction l with
  | nil => intro _; rfl
  | cons c r ih =>
    intro h
    rw [List.dropWhile]
    cases hq : q c with
    | true => exact ih ((Bool.and_eq_true _ _).mp h).2
    | false => exact h

/-- The normal form of replace 5 passes to dropWhile. -/
theorem nlOK_dropWhile (q : Char → Bool) : ∀ (l : List Char),
    nlOK l = true → nlOK (l.dropWhile q) = true := by
  intro l
  induction l with
  | nil => intro _; rfl
  | cons c r ih =>
    intro h
    rw [List.dropWhile]
    cases hq : q c with
    | true => exact ih ((Bool.and_eq_true _ _).mp h).2
    | false => exact h

/-- The normal form of replace 6 passes to dropWhile. -/
theorem n3OK_dropWhile (q : Char → Bool) : ∀ (l : List Char),
    n3OK l = true → n3OK (l.dropWhile q) = true := by
  intro l
  induction l with
  | nil => intro _; rfl
  | cons c r ih =>
    intro h
    rw [List.dropWhile]
    cases hq : q c with
    | true => exact ih ((Bool.and_eq_true _ _).mp h).2
    | false => exact h

/-- Trimming keeps the normal form of replace 4. -/
theorem hsOK_jsTrim {l : List Char} (h : hsOK l = true) :
    hsOK (jsTrim l) = true := by
  have h1 : hsOK (trimL l) = true := hsOK_dropWhile jsWs l h
  obtain ⟨w, hw⟩ := trimR_decomp (trimL l)
  rw [jsTrim]
  exact hsOK_append_left _ w (by rw [← hw]; exact h1)

/-- Trimming keeps the normal form of replace 5. -/
theorem nlOK_jsTrim {l : List Char} (h : nlOK l = true) :
    nlOK (jsTrim l) = true := by
  have h1 : nlOK (trimL l) = true := nlOK_dropWhile jsWs l h
  obtain ⟨w, hw⟩ := trimR_decomp (trimL l)
  rw [jsTrim]
  exact nlOK_append_left _ w (by rw [← hw]; exact h1)

/-- Trimming keeps the normal form of replace 6. -/
theorem n3OK_jsTrim {l : List Char} (h : n3OK l = true) :
    n3OK (jsTrim l) = true := by
  have h1 : n3OK (trimL l) = true := n3OK_dropWhile jsWs l h
  obtain ⟨w, hw⟩ := trimR_decomp (trimL l)
  rw [jsTrim]
  exact n3OK_append_left _ w (by rw [← hw]; exact h1)

/-- Replace 5 keeps a non-whitespace head (scanner started outside a
newline). -/
theorem headIsHs_nlHs {l : List Char} (h : headIsHs l = false) :
    headIsHs (nlHs false l) = false := by
  cases l with
  | nil => rfl
  | cons c r =>
    rw [headIsHs] at h
    rw [nlHs, if_neg (by simp), headIsHs]
    exact h

/-- Replace 6 started outside a newline run keeps a non-whitespace head. -/
theorem headIsHs_nl3_zero {l : List Char} (h : headIsHs l = false) :
    headIsHs (nl3 0 l) = false := by
  cases l with
  | nil => rfl
  | cons c r =>
    rw [headIsHs] at h
    by_cases hn : c = '\n'
    · subst hn
      rw [nl3, if_pos rfl, if_neg (by omega : ¬(2 ≤ 0)), headIsHs]
      decide
    · rw [nl3, if_neg hn, headIsHs]
      exact h

/-- On a replace-5 normal form, replace 6 keeps a non-whitespace head. -/
theorem headIsHs_nl3 : ∀ (l : List Char) (k : Nat), nlOK l = true →
    headIsHs l = false → headIsHs (nl3 k l) = false := by
  intro l
  induction l with
  | nil => intro _ _ _; rfl
  | cons c r ih =>
    intro k hok h
    rw [headIsHs] at h
    rw [nlOK, Bool.and_eq_true] at hok
    by_cases hn : c = '\n'
    · subst hn
      by_cases hk : 2 ≤ k
      · rw [nl3, if_pos rfl, if_pos hk]
        refine ih k hok.2 ?_
        simpa using hok.1
      · rw [nl3, if_pos rfl, if_neg hk, headIsHs]
        decide
    · rw [nl3, if_neg hn, headIsHs]
      exact h

/-- Replace 5 keeps the normal form of replace 4. -/
theorem hsOK_nlHs : ∀ (l : List Char) (b : Bool), hsOK l = true →
    hsOK (nlHs b l) = true := by
  intro l
  induction l with
  | nil => intro _ _; rfl
  | cons c r ih =>
    intro b h
    rw [hsOK, Bool.and_eq_true] at h
    obtain ⟨hc, hr⟩ := h
    by_cases hb : (b && hsChar c) = true
    · rw [nlHs, if_pos hb]
      exact ih true hr
    · rw [nlHs, if_neg hb, hsOK, Bool.and_eq_true]
      refine ⟨?_, ih _ hr⟩
      rcases Bool.or_eq_true_iff.mp hc with h1 | h1
      · rw [h1]
        rfl
      · rw [Bool.and_eq_true] at h1
        have hsp : c = ' ' := by simpa using h1.1
        have hhr : headIsHs r = false := by simpa using h1.2
        have hnn : (decide (c = '\n')) = false := by
          subst hsp
          decide
      
        rw [Bool.or_eq_true_iff]
        right
        rw [Bool.and_eq_true]
        refine ⟨by simp [hsp], ?_⟩
        rw [hnn]
        rw [Bool.not_eq_true']
        exact headIsHs_nlHs hhr
    
/-- Replace 6 keeps the normal form of replace 4. -/
theorem hsOK_nl3 : ∀ (l : List Char) (k : Nat), hsOK l = true →
    hsOK (nl3 k l) = true := by
  intro l
  induction l with
  | nil => intro _ _; rfl
  | cons c r ih =>
    intro k h
    rw [hsOK, Bool.and_eq_true] at h
    obtain ⟨hc, hr⟩ := h
    by_cases hn : c = '\n'
    · subst hn
      by_cases hk : 2 ≤ k
      · rw [nl3, if_pos rfl, if_pos hk]
        exact ih k hr
      · rw [nl3, if_pos rfl, if_neg hk, hsOK, Bool.and_eq_true]
        exact ⟨Bool.or_eq_true_iff.mpr (Or.inl (by decide)), ih (k + 1) hr⟩
    · rw [nl3, if_neg hn, hsOK, Bool.and_eq_true]
      refine ⟨?_, ih 0 hr⟩
      rcases Bool.or_eq_true_iff.mp hc with h1 | h1
      · rw [h1]
        rfl
      · rw [Bool.and_eq_true] at h1
        have hhr : headIsHs r = false := by simpa using h1.2
        rw [Bool.or_eq_true_iff]
        right
        rw [Bool.and_eq_true]
        refine ⟨h1.1, ?_⟩
        rw [Bool.not_eq_true']
        exact headIsHs_nl3_zero hhr

/-- Replace 6 keeps the normal form of replace 5. -/
theorem nlOK_nl3 : ∀ (l : List Char) (k : Nat), nlOK l = true →
    nlOK (nl3 k l) = true := by
  intro l
  induction l with
  | nil => intro _ _; rfl
  | cons c r ih =>
    intro k h
    rw [nlOK, Bool.and_eq_true] at h
    obtain ⟨hc, hr⟩ := h
    by_cases hn : c = '\n'
    · subst hn
      have hhr : headIsHs r = false := by simpa using hc
      by_cases hk : 2 ≤ k
      · rw [nl3, if_pos rfl, if_pos hk]
        exact ih k hr
      · rw [nl3, if_pos rfl, if_neg hk, nlOK, Bool.and_eq_true]
        refine ⟨?_, ih (k + 1) hr⟩
        rw [Bool.or_eq_true_iff]
        right
        rw [Bool.not_eq_true']
        exact headIsHs_nl3 r (k + 1) hr hhr
    · rw [nl3, if_neg hn, nlOK, Bool.and_eq_true]
      refine ⟨by simp [hn], ih 0 hr⟩

/-- Replace 1 only keeps or drops input characters. -/
theorem mem_ugGo : ∀ (f : Nat) (b : Bool) (l : List Char) (x : Char),
    x ∈ ugGo f b l → x ∈ l := by
  intro f
  induction f with
  | zero => intro b l x h; exact h
  | succ f2 ih =>
    intro b l x h
    cases l with
    | nil => simp [ugGo] at h
    | cons c rest =>
      cases b with
      | true =>
        rw [ugGo] at h
        by_cases hs : usaStop (c :: rest) = true
        · rw [if_pos hs] at h
          exact ih false (c :: rest) x h
        · rw [if_neg hs] at h
          exact List.mem_cons_of_mem c (ih true rest x h)
      | false =>
        rw [ugGo] at h
        by_cases hm : matchCI ['u', 's', 'a', '.', 'g', 'o', 'v'] (c :: rest) = true
        · rw [if_pos hm] at h
          exact List.mem_of_mem_drop (ih true _ x h)
        · rw [if_neg hm] at h
          rcases List.mem_cons.mp h with rfl | h2
          · exact List.mem_cons_self x rest
          · exact List.mem_cons_of_mem c (ih false rest x h2)

/-- Replace 2 only keeps pending or input characters. -/
theorem mem_blGo : ∀ (l : List Char) (st : BLState) (pend : List Char) (x : Char),
    x ∈ blGo st pend l → x ∈ pend ∨ x ∈ l := by
  intro l
  induction l with
  | nil =>
    intro st pend x h
    cases st with
    | lineStart =>
      rw [blGo] at h
      exact Or.inl (List.mem_reverse.mp h)
    | mid => simp [blGo] at h
    | delWs => simp [blGo] at h
    | delTxt => simp [blGo] at h
  | cons c rest ih =>
    intro st pend x h
    cases st with
    | lineStart =>
      rw [blGo] at h
      by_cases hb : bullet2 c = true
      · rw [if_pos hb] at h
        rcases ih .delWs [] x h with h2 | h2
        · simp at h2
        · exact Or.inr (List.mem_cons_of_mem c h2)
      · rw [if_neg hb] at h
        by_cases hw : jsWs c = true
        · rw [if_pos hw] at h
          rcases ih .lineStart (c :: pend) x h with h2 | h2
          · rcases List.mem_cons.mp h2 with rfl | h3
            · exact Or.inr (List.mem_cons_self x rest)
            · exact Or.inl h3
          · exact Or.inr (List.mem_cons_of_mem c h2)
        · rw [if_neg hw] at h
          rcases List.mem_append.mp h with h2 | h2
          · exact Or.inl (List.mem_reverse.mp h2)
          · rcases List.mem_cons.mp h2 with rfl | h3
            · exact Or.inr (List.mem_cons_self x rest)
            · rcases ih .mid [] x h3 with h4 | h4
              · simp at h4
              · exact Or.inr (List.mem_cons_of_mem c h4)
    | mid =>
      rw [blGo] at h
      by_cases hn : c = '\n'
      · subst hn
        rw [if_pos rfl] at h
        rcases List.mem_cons.mp h with rfl | h2
        · exact Or.inr (List.mem_cons_self _ rest)
        · rcases ih .lineStart [] x h2 with h3 | h3
          · simp at h3
          · exact Or.inr (List.mem_cons_of_mem _ h3)
      · rw [if_neg hn] at h
        rcases List.mem_cons.mp h with rfl | h2
        · exact Or.inr (List.mem_cons_self x rest)
        · rcases ih .mid [] x h2 with h3 | h3
          · simp at h3
          · exact Or.inr (List.mem_cons_of_mem c h3)
    | delWs =>
      rw [blGo] at h
      by_cases hw : jsWs c = true
      · rw [if_pos hw] at h
        rcases ih .delWs [] x h with h2 | h2
        · simp at h2
        · exact Or.inr (List.mem_cons_of_mem c h2)
      · rw [if_neg hw] at h
        rcases ih .delTxt [] x h with h2 | h2
        · simp at h2
        · exact Or.inr (List.mem_cons_of_mem c h2)
    | delTxt =>
      rw [blGo] at h
      by_cases hn : c = '\n'
      · subst hn
        rw [if_pos rfl] at h
        rcases List.mem_cons.mp h with rfl | h2
        · exact Or.inr (List.mem_cons_self _ rest)
        · rcases ih .lineStart [] x h2 with h3 | h3
          · simp at h3
          · exact Or.inr (List.mem_cons_of_mem _ h3)
      · rw [if_neg hn] at h
        rcases ih .delTxt [] x h with h2 | h2
        · simp at h2
        · exact Or.inr (List.mem_cons_of_mem c h2)

/-- Replace 3 only keeps pending or input characters, or inserts spaces. -/
theorem mem_bcGo : ∀ (l : List Char) (b : Bool) (pend : List Char) (x : Char),
    x ∈ bcGo b pend l → x ∈ pend ∨ x ∈ l ∨ x = ' ' := by
  intro l
  induction l with
  | nil =>
    intro b pend x h
    cases b with
    | false =>
      rw [bcGo] at h
      exact Or.inl (List.mem_reverse.mp h)
    | true => simp [bcGo] at h
  | cons c rest ih =>
    intro b pend x h
    cases b with
    | false =>
      rw [bcGo] at h
      by_cases hb : bullet4 c = true
      · rw [if_pos hb] at h
        rcases List.mem_cons.mp h with rfl | h2
        · exact Or.inr (Or.inr rfl)
        · rcases ih true [] x h2 with h3 | h3 | h3
          · simp at h3
          · exact Or.inr (Or.inl (List.mem_cons_of_mem c h3))
          · exact Or.inr (Or.inr h3)
      · rw [if_neg hb] at h
        by_cases hw : jsWs c = true
        · rw [if_pos hw] at h
          rcases ih false (c :: pend) x h with h2 | h2 | h2
          · rcases List.mem_cons.mp h2 with rfl | h3
            · exact Or.inr (Or.inl (List.mem_cons_self x rest))
            · exact Or.inl h3
          · exact Or.inr (Or.inl (List.mem_cons_of_mem c h2))
          · exact Or.inr (Or.inr h2)
        · rw [if_neg hw] at h
          rcases List.mem_append.mp h with h2 | h2
          · exact Or.inl (List.mem_reverse.mp h2)
          · rcases List.mem_cons.mp h2 with rfl | h3
            · exact Or.inr (Or.inl (List.mem_cons_self x rest))
            · rcases ih false [] x h3 with h4 | h4 | h4
              · simp at h4
              · exact Or.inr (Or.inl (List.mem_cons_of_mem c h4))
              · exact Or.inr (Or.inr h4)
    | true =>
      rw [bcGo] at h
      by_cases hw : jsWs c = true
      · rw [if_pos hw] at h
        rcases ih true [] x h with h2 | h2 | h2
        · simp at h2
        · exact Or.inr (Or.inl (List.mem_cons_of_mem c h2))
        · exact Or.inr (Or.inr h2)
      · rw [if_neg hw] at h
        by_cases hb : bullet4 c = true
        · rw [if_pos hb] at h
          rcases List.mem_cons.mp h with rfl | h2
          · exact Or.inr (Or.inr rfl)
          · rcases ih true [] x h2 with h3 | h3 | h3
            · simp at h3
            · exact Or.inr (Or.inl (List.mem_cons_of_mem c h3))
            · exact Or.inr (Or.inr h3)
        · rw [if_neg hb] at h
          rcases List.mem_cons.mp h with rfl | h2
          · exact Or.inr (Or.inl (List.mem_cons_self x rest))
          · rcases ih false [] x h2 with h3 | h3 | h3
            · simp at h3
            · exact Or.inr (Or.inl (List.mem_cons_of_mem c h3))
            · exact Or.inr (Or.inr h3)

/-- Replace 4 only keeps input characters or inserts spaces. -/
theorem mem_hsRun : ∀ (l : List Char) (b : Bool) (x : Char),
    x ∈ hsRun b l → x ∈ l ∨ x = ' ' := by
  intro l
  induction l with
  | nil => intro b x h; simp [hsRun] at h
  | cons c rest ih =>
    intro b x h
    rw [hsRun] at h
    by_cases hc : hsChar c = true
    · rw [if_pos hc] at h
      cases b with
      | true =>
        rcases ih true x h with h2 | h2
        · exact Or.inl (List.mem_cons_of_mem c h2)
        · exact Or.inr h2
      | false =>
        rcases List.mem_cons.mp h with rfl | h2
        · exact Or.inr rfl
        · rcases ih true x h2 with h3 | h3
          · exact Or.inl (List.mem_cons_of_mem c h3)
          · exact Or.inr h3
    · rw [if_neg hc] at h
      rcases List.mem_cons.mp h with rfl | h2
      · exact Or.inl (List.mem_cons_self x rest)
      · rcases ih false x h2 with h3 | h3
        · exact Or.inl (List.mem_cons_of_mem c h3)
        · exact Or.inr h3

/-- Replace 5 only keeps input characters. -/
theorem mem_nlHs : ∀ (l : List Char) (b : Bool) (x : Char),
    x ∈ nlHs b l → x ∈ l := by
  intro l
  induction l with
  | nil => intro b x h; simp [nlHs] at h
  | cons c rest ih =>
    intro b x h
    rw [nlHs] at h
    by_cases hb : (b && hsChar c) = true
    · rw [if_pos hb] at h
      exact List.mem_cons_of_mem c (ih true x h)
    · rw [if_neg hb] at h
      rcases List.mem_cons.mp h with rfl | h2
      · exact List.mem_cons_self x rest
      · exact List.mem_cons_of_mem c (ih _ x h2)

/-- Replace 6 only keeps input characters. -/
theorem mem_nl3 : ∀ (l : List Char) (k : Nat) (x : Char),
    x ∈ nl3 k l → x ∈ l := by
  intro l
  induction l with
  | nil => intro k x h; simp [nl3] at h
  | cons c rest ih =>
    intro k x h
    rw [nl3] at h
    by_cases hn : c = '\n'
    · subst hn
      rw [if_pos rfl] at h
      by_cases hk : 2 ≤ k
      · rw [if_pos hk] at h
        exact List.mem_cons_of_mem _ (ih k x h)
      · rw [if_neg hk] at h
        rcases List.mem_cons.mp h with rfl | h2
        · exact List.mem_cons_self _ rest
        · exact List.mem_cons_of_mem _ (ih (k + 1) x h2)
    · rw [if_neg hn] at h
      rcases List.mem_cons.mp h with rfl | h2
      · exact List.mem_cons_self x rest
      · exact List.mem_cons_of_mem c (ih 0 x h2)

/-- Trimming only keeps input characters. -/
theorem mem_jsTrim {l : List Char} {x : Char} (h : x ∈ jsTrim l) : x ∈ l := by
  rw [jsTrim] at h
  obtain ⟨w, hw⟩ := trimR_decomp (trimL l)
  have h1 : x ∈ trimL l := by
    rw [hw]
    exact List.mem_append.mpr (Or.inl h)
  exact (List.dropWhile_sublist jsWs).subset h1

/-- Cleaning never introduces bullet characters. -/
theorem bulletFree_cleanTextL {l : List Char} (h : bulletFree l = true) :
    bulletFree (cleanTextL l) = true := by
  rw [bulletFree, List.all_eq_true] at h ⊢
  intro x hx
  rw [cleanTextL] at hx
  have h1 := mem_jsTrim hx
  have h2 := mem_nl3 _ 0 x h1
  have h3 := mem_nlHs _ false x h2
  rcases mem_hsRun _ false x h3 with h4 | h4
  · rw [bulletChars] at h4
    rcases mem_bcGo _ false [] x h4 with h5 | h5 | h5
    · simp at h5
    · rw [bulletLines] at h5
      rcases mem_blGo _ .lineStart [] x h5 with h6 | h6
      · simp at h6
      · exact h x (mem_ugGo _ false l x h6)
    · subst h5
      decide
  · subst h4
    decide

/-- On a bullet-free input whose cleaned text is usa.gov-free, cleaning is
idempotent: the cleaned text is a fixed point of every stage. -/
theorem cleanTextL_idem {l : List Char} (hb : bulletFree l = true)
    (hu : noUsaGov (cleanTextL l) = true) :
    cleanTextL (cleanTextL l) = cleanTextL l := by
  have hbc : bulletFree (cleanTextL l) = true := bulletFree_cleanTextL hb
  have hhs : hsOK (cleanTextL l) = true := by
    rw [cleanTextL]
    exact hsOK_jsTrim (hsOK_nl3 _ 0 (hsOK_nlHs _ false (hsRun_nf _).1))
  have hnl : nlOK (cleanTextL l) = true := by
    rw [cleanTextL]
    exact nlOK_jsTrim (nlOK_nl3 _ 0 ((nlHs_nf _).1 false))
  have hn3 : n3OK (cleanTextL l) = true := by
    rw [cleanTextL]
    exact n3OK_jsTrim (nl3_nf _ 0).1
  have htr : jsTrim (cleanTextL l) = cleanTextL l := by
    rw [cleanTextL]
    exact jsTrim_idem _
  have e1 : usaGov (cleanTextL l) = cleanTextL l := ugGo_id _ _ hu
  have e2 : bulletLines (cleanTextL l) = cleanTextL l := by
    rw [bulletLines, (blGo_id _ hbc).1 []]
    rfl
  have e3 : bulletChars (cleanTextL l) = cleanTextL l := by
    rw [bulletChars, bcGo_id _ hbc []]
    rfl
  have e4 : hsRun false (cleanTextL l) = cleanTextL l := (hsRun_id _ hhs).1
  have e5 : nlHs false (cleanTextL l) = cleanTextL l := (nlHs_id _ hnl).1
  have e6 : nl3 0 (cleanTextL l) = cleanTextL l := (nl3_id _ hn3).1
  conv_lhs => rw [cleanTextL]
  rw [e1, e2, e3, e4, e5, e6, htr]

/-- C8 (amended): the cleaning step is idempotent on every input free of
bullet characters whose cleaned text contains no case-insensitive
`usa.gov`; unrestricted idempotence fails (see the counterexample). -/
theorem c8_cleaning_idempotent (s : String)
    (hb : bulletFree s.data = true)
    (hu : noUsaGov (cleanTextL s.data) = true) :
    cleanText (cleanText s) = cleanText s :=
  congrArg String.mk (cleanTextL_idem hb hu)

set_option maxRecDepth 10000 in
/-- C8 witness: cleaning "Gale warning  in effect.\n\n\n\nSeas 10 ft."
(a double space and a 4-newline run) once more changes nothing. -/
theorem c8_witness :
    cleanText (cleanText "Gale warning  in effect.\n\n\n\nSeas 10 ft.") =
      cleanText "Gale warning  in effect.\n\n\n\nSeas 10 ft." :=
  c8_cleaning_idempotent "Gale warning  in effect.\n\n\n\nSeas 10 ft."
    (by decide) (by decide)

end Bightwatch
